import Mathlib

/-!
Edit-distance engine of `goutil` (`editdistance.go`).

A shallow embedding of the edit-distance routines and a verification of their
contract.

Modelling conventions.

* A Go `string` is its byte sequence, `List UInt8`.
* A Go `int` is an `Int`.  Every integer the routines compute lies between `0`
  and `len(s) + len(t) + 1`, far below `2^63` for any string that fits in
  memory, so no wrap-around is modelled.
* A run-time panic (index out of range) is the `Except.error` branch of
  `Except Fault`; a Go `(value, error)` result is a pair whose second component
  is `none` for a `nil` error.  A `nil` slice result is `none`.
* A counted loop `for i := lo; i < hi; i++` is `forRange body lo (hi - lo)`.
* A recurrence (`costFunc`) is a pure function of its arguments that may panic.
-/

namespace Goutil

/-! ## Run-time model -/

/-- Run-time panics of the Go program. -/
inductive Fault where
  | indexOutOfRange
  deriving DecidableEq

/-- Error values returned by the package (`var ErrTrivialMatrix = errors.New(...)`). -/
inductive GoError where
  | ErrTrivialMatrix
  deriving DecidableEq

deriving instance DecidableEq for Except

/-- Checked read `xs[i]` with a Go `int` index. -/
def index {α : Type} (xs : List α) (i : Int) : Except Fault α :=
  if i < 0 then .error .indexOutOfRange
  else
    match xs[i.toNat]? with
    | some v => .ok v
    | none => .error .indexOutOfRange

/-- Checked write `xs[i] = v` with a Go `int` index. -/
def assign {α : Type} (xs : List α) (i : Int) (v : α) : Except Fault (List α) :=
  if 0 ≤ i ∧ i.toNat < xs.length then .ok (xs.set i.toNat v)
  else .error .indexOutOfRange

/-- The type `matrix [][]int`. -/
abbrev matrix := List (List Int)

/-- The type `costFunc func(matrix, int, int, int) int`. -/
abbrev costFunc := matrix → Int → Int → Int → Except Fault Int

/-- Checked read `m[i][j]`. -/
def index2 (m : matrix) (i j : Int) : Except Fault Int := do
  let row ← index m i
  index row j

/-- Checked write `m[i][j] = v`. -/
def assign2 (m : matrix) (i j : Int) (v : Int) : Except Fault matrix := do
  let row ← index m i
  let row ← assign row j v
  assign m i row

/-- The counted loop `for k := lo; k < lo + n; k++ { st = body(k, st) }`. -/
def forRange {σ : Type} (body : Nat → σ → Except Fault σ) : Nat → Nat → σ → Except Fault σ
  | _, 0, st => .ok st
  | lo, n + 1, st => body lo st >>= forRange body (lo + 1) n

/-- Modelled from the spec: `MinInt` is called by `editdistance.go` but its
source file is not present.  The spec (§6) describes it as "returning the least
element of a non-empty finite sequence of integers", and (§7) an empty sequence
as a bounds failure of the helper. -/
def MinInt : List Int → Except Fault Int
  | [] => .error .indexOutOfRange
  | x :: xs => .ok (xs.foldl min x)

/-- The built-in string comparison `a < b`: byte-wise lexicographic order. -/
def stringLess : List UInt8 → List UInt8 → Bool
  | _, [] => false
  | [], _ :: _ => true
  | a :: as, b :: bs => if a < b then true else if b < a then false else stringLess as bs

/-- The standard library `strings.Compare`: `0` if `a == b`, `-1` if `a < b`, else `+1`. -/
def stringsCompare (a b : List UInt8) : Int :=
  if a = b then 0 else if stringLess a b then -1 else 1

/-! ## The program -/

/-- Function `LevenschteinCost` (editdistance.go, lines 15-21). -/
def LevenschteinCost : costFunc := fun m i j cost => do
  let a ← index2 m (i - 1) j
  let b ← index2 m i (j - 1)
  let c ← index2 m (i - 1) (j - 1)
  MinInt [a + 1, b + 1, c + cost]

/-- Function `SmithWatermanCost` (editdistance.go, lines 24-31). -/
def SmithWatermanCost : costFunc := fun m i j cost => do
  let a ← index2 m (i - 1) j
  let b ← index2 m i (j - 1)
  let c ← index2 m (i - 1) (j - 1)
  MinInt [0, a + 1, b + 1, c + cost]

/-- Function `checkTrivial` (editdistance.go, lines 115-123). -/
def checkTrivial (s t : List UInt8) : Bool :=
  if stringsCompare s t = 0 then true
  else if s.length = 0 ∨ t.length = 0 then true
  else false

/-- Body of the inner loop of `EditDistanceMatrix` (lines 59-63). -/
def matrixCell (s t : List UInt8) (costFn : costFunc) (i j : Nat) (m : matrix) :
    Except Fault matrix := do
  let a ← index s ((i : Int) - 1)
  let b ← index t ((j : Int) - 1)
  let cost : Int := if a ≠ b then 1 else 0
  let v ← costFn m i j cost
  assign2 m i j v

/-- Body of the outer loop of `EditDistanceMatrix` (lines 58-64). -/
def matrixRow (s t : List UInt8) (costFn : costFunc) (x : Nat) (i : Nat) (m : matrix) :
    Except Fault matrix :=
  forRange (matrixCell s t costFn i) 1 (x - 1) m

/-- Allocation of the tableau and initialisation of its borders
(editdistance.go, lines 42-53). -/
def initMatrix (y x : Nat) : Except Fault matrix := do
  let m : matrix := List.replicate y []
  let m ← forRange (fun z m => assign m z (List.replicate x (0 : Int))) 0 m.length m
  let m ← forRange (fun i m => assign2 m i 0 i) 1 (y - 1) m
  forRange (fun j m => assign2 m 0 j j) 1 (x - 1) m

/-- Function `EditDistanceMatrix` (editdistance.go, lines 34-67). -/
def EditDistanceMatrix (s t : List UInt8) (costFn : costFunc) :
    Except Fault (Option matrix × Option GoError) :=
  if checkTrivial s t then .ok (none, some .ErrTrivialMatrix)
  else do
    let y := s.length + 1
    let x := t.length + 1
    let m ← initMatrix y x
    let m ← forRange (matrixRow s t costFn x) 1 (y - 1) m
    return (some m, none)

/-- Function `EditDistance1` (editdistance.go, lines 71-77). -/
def EditDistance1 (s t : List UInt8) : Except Fault (Int × Option GoError) := do
  let (m, err) ← EditDistanceMatrix s t LevenschteinCost
  match err with
  | some e => return (0, some e)
  | none =>
    let v ← index2 (m.getD []) s.length t.length
    return (v, none)

/-- Body of the inner loop of `EditDistance2` (lines 97-106); the state is `v1`. -/
def rollCell (s t : List UInt8) (v0 : List Int) (i j : Nat) (v1 : List Int) :
    Except Fault (List Int) := do
  let a ← index s i
  let b ← index t j
  let cost : Int := if a ≠ b then 1 else 0
  let c1 ← index v1 j
  let c2 ← index v0 ((j : Int) + 1)
  let c3 ← index v0 j
  let r ← MinInt [c1 + 1, c2 + 1, c3 + cost]
  assign v1 ((j : Int) + 1) r

/-- Body of the outer loop of `EditDistance2` (lines 95-110); the state is `(v0, v1)`. -/
def rollRow (s t : List UInt8) (i : Nat) (v : List Int × List Int) :
    Except Fault (List Int × List Int) := do
  let v0 := v.1
  let v1 ← assign v.2 0 ((i : Int) + 1)
  let v1 ← forRange (rollCell s t v0 i) 0 t.length v1
  let v0 ← forRange (fun j v0 => do let c ← index v1 j; assign v0 j c) 0 v0.length v0
  return (v0, v1)

/-- The rows `v0` of `EditDistance2` after the initialisation loop (lines 87-92). -/
def rollInit (t : List UInt8) : Except Fault (List Int × List Int) := do
  let v0 := List.replicate (t.length + 1) (0 : Int)
  let v1 := List.replicate (t.length + 1) (0 : Int)
  let v0 ← forRange (fun i v0 => assign v0 (i : Int) (i : Int)) 0 v0.length v0
  return (v0, v1)

/-- Function `EditDistance2` (editdistance.go, lines 82-113). -/
def EditDistance2 (s t : List UInt8) : Except Fault (Int × Option GoError) :=
  if checkTrivial s t then .ok (0, some .ErrTrivialMatrix)
  else do
    let v ← rollInit t
    let v ← forRange (rollRow s t) 0 s.length v
    let r ← index v.2 t.length
    return (r, none)

/-! ## Reference definitions -/

/-- One single-element edit of a sequence: an insertion, a deletion, or the
substitution of one element by a different one, at any position. -/
inductive EditStep {α : Type} : List α → List α → Prop where
  | insertion (l r : List α) (a : α) : EditStep (l ++ r) (l ++ a :: r)
  | deletion (l r : List α) (a : α) : EditStep (l ++ a :: r) (l ++ r)
  | substitution (l r : List α) (a b : α) (h : a ≠ b) : EditStep (l ++ a :: r) (l ++ b :: r)

/-- Proposition `EditsIn n s t`: some sequence of exactly `n` single-element edits transforms `s` into `t`. -/
inductive EditsIn {α : Type} : Nat → List α → List α → Prop where
  | done (s : List α) : EditsIn 0 s s
  | step {n : Nat} {s u t : List α} : EditStep s u → EditsIn n u t → EditsIn (n + 1) s t

/-- Proposition `IsEditDistance s t d`: `d` is the minimum number of single-element
insertions, deletions and substitutions that transform `s` into `t`. -/
def IsEditDistance {α : Type} (s t : List α) (d : Nat) : Prop :=
  EditsIn d s t ∧ ∀ n, EditsIn n s t → d ≤ n

/-- The Levenshtein recursion on the heads of two sequences. -/
def levDist {α : Type} [DecidableEq α] : List α → List α → Nat
  | [], t => t.length
  | a :: s, [] => (a :: s).length
  | a :: s, b :: t =>
    min (levDist s (b :: t) + 1)
      (min (levDist (a :: s) t + 1) (levDist s t + if a = b then 0 else 1))
termination_by s t => s.length + t.length

/-- Total read of cell `(i, j)` of a tableau (`0` outside the tableau). -/
def cellAt (m : matrix) (i j : Nat) : Int :=
  (m.getD i []).getD j 0

/-- The input pairs on which the routines compute: distinct and non-empty. -/
def NonTrivial (s t : List UInt8) : Prop := s ≠ t ∧ s ≠ [] ∧ t ≠ []

/-- A tableau has `y` rows of `x` columns each. -/
def Dims (y x : Nat) (m : matrix) : Prop :=
  m.length = y ∧ ∀ i, i < y → (m.getD i []).length = x

/-- The tableau `m` with cell `(i, j)` replaced by `v`. -/
def setCell (m : matrix) (i j : Nat) (v : Int) : matrix :=
  m.set i ((m.getD i []).set j v)

/-- The substitution cost of cell `(i, j)`: `0` if `s[i-1] = t[j-1]`, else `1`. -/
def substCost (s t : List UInt8) (i j : Nat) : Int :=
  if s.getD (i - 1) 0 ≠ t.getD (j - 1) 0 then 1 else 0

/-- The tableau as it stands when the fill loop is about to write cell `(i, j)`:
borders, rows above `i` and the cells of row `i` left of `j` hold `F`, the rest `0`. -/
def Filled (F : Nat → Nat → Int) (y x i j : Nat) (m : matrix) : Prop :=
  Dims y x m ∧ ∀ k l, k < y → l < x →
    cellAt m k l = if k = 0 ∨ l = 0 ∨ k < i ∨ (k = i ∧ l < j) then F k l else 0

/-- The Levenshtein recursion on the first `i` bytes of `s` and the first `j`
bytes of `t`, run from their last bytes as the tableau does. -/
def levCell (s t : List UInt8) (i j : Nat) : Int :=
  (levDist (s.take i).reverse (t.take j).reverse : Nat)

/-- The table this builder produces under `SmithWatermanCost`: the borders
`i` and `j`, and `0` in every interior cell. -/
def swCell (i j : Nat) : Int :=
  if j = 0 then (i : Int) else if i = 0 then (j : Int) else 0

/-- The borders of a tableau hold the row and column numbers. -/
def Borders (y x : Nat) (m : matrix) : Prop :=
  ∀ k l, k < y → l < x → (l = 0 → cellAt m k l = k) ∧ (k = 0 → cellAt m k l = l)

/-- A rolling row `v` holds row `i` of the table `F`, of width `x`. -/
def RowIs (F : Nat → Nat → Int) (x i : Nat) (v : List Int) : Prop :=
  v.length = x ∧ ∀ l, l < x → v.getD l 0 = F i l

/-- The bytes of `"ab"`. -/
def strAB : List UInt8 := [97, 98]

/-- The bytes of `"cd"`. -/
def strCD : List UInt8 := [99, 100]

/-- The bytes of `"abc"`. -/
def strABC : List UInt8 := [97, 98, 99]

/-- The bytes of `"kitten"`. -/
def strKitten : List UInt8 := [107, 105, 116, 116, 101, 110]

/-- The bytes of `"sitting"`. -/
def strSitting : List UInt8 := [115, 105, 116, 116, 105, 110, 103]

/-- The bytes of `"ca"`. -/
def strCA : List UInt8 := [99, 97]

/-- The bytes of `"saturday"`. -/
def strSaturday : List UInt8 := [115, 97, 116, 117, 114, 100, 97, 121]

/-- The bytes of `"sunday"`. -/
def strSunday : List UInt8 := [115, 117, 110, 100, 97, 121]

/-! ## The Levenshtein recursion and edit scripts -/

section EditScripts

variable {α : Type}

theorem editStep_cons {s u : List α} (x : α) (h : EditStep s u) :
    EditStep (x :: s) (x :: u) := by
  cases h with
  | insertion l r a => exact EditStep.insertion (x :: l) r a
  | deletion l r a => exact EditStep.deletion (x :: l) r a
  | substitution l r a b hab => exact EditStep.substitution (x :: l) r a b hab

theorem editStep_reverse {s u : List α} (h : EditStep s u) :
    EditStep s.reverse u.reverse := by
  cases h with
  | insertion l r a =>
    have := EditStep.insertion r.reverse l.reverse a
    simpa using this
  | deletion l r a =>
    have := EditStep.deletion r.reverse l.reverse a
    simpa using this
  | substitution l r a b hab =>
    have := EditStep.substitution r.reverse l.reverse a b hab
    simpa using this

theorem editsIn_cons {n : Nat} {s t : List α} (x : α) (h : EditsIn n s t) :
    EditsIn n (x :: s) (x :: t) := by
  induction h with
  | done s => exact EditsIn.done _
  | step hs _ ih => exact EditsIn.step (editStep_cons x hs) ih

theorem editsIn_reverse {n : Nat} {s t : List α} (h : EditsIn n s t) :
    EditsIn n s.reverse t.reverse := by
  induction h with
  | done s => exact EditsIn.done _
  | step hs _ ih => exact EditsIn.step (editStep_reverse hs) ih

theorem editsIn_nil_left (t : List α) : EditsIn t.length [] t := by
  induction t with
  | nil => exact EditsIn.done _
  | cons b t ih =>
    exact EditsIn.step (EditStep.insertion [] [] b) (editsIn_cons b ih)

theorem editsIn_nil_right (s : List α) : EditsIn s.length s [] := by
  induction s with
  | nil => exact EditsIn.done _
  | cons a s ih => exact EditsIn.step (EditStep.deletion [] s a) ih

theorem IsEditDistance.unique {s t : List α} {d e : Nat}
    (hd : IsEditDistance s t d) (he : IsEditDistance s t e) : d = e :=
  le_antisymm (hd.2 e he.1) (he.2 d hd.1)

end EditScripts

section EditTheory

variable {α : Type} [DecidableEq α]

theorem levDist_nil_left (t : List α) : levDist [] t = t.length := by
  rw [levDist]

theorem levDist_nil_right (s : List α) : levDist s [] = s.length := by
  cases s with
  | nil => rw [levDist]
  | cons a s => rw [levDist]

theorem levDist_cons_cons (a b : α) (s t : List α) :
    levDist (a :: s) (b :: t) =
      min (levDist s (b :: t) + 1)
        (min (levDist (a :: s) t + 1) (levDist s t + if a = b then 0 else 1)) := by
  rw [levDist]

theorem levDist_comm (s t : List α) : levDist s t = levDist t s := by
  induction s generalizing t with
  | nil => rw [levDist_nil_left, levDist_nil_right]
  | cons a s ihs =>
    induction t with
    | nil => rw [levDist_nil_left, levDist_nil_right]
    | cons b t iht =>
      rw [levDist_cons_cons, levDist_cons_cons, ihs (b :: t), iht, ihs t]
      have h : (if a = b then 0 else 1) = (if b = a then 0 else 1 : Nat) := by
        by_cases hab : a = b
        · subst hab; simp
        · have hba : ¬ b = a := fun h => hab h.symm
          simp [hab, hba]
      rw [h, min_left_comm]

theorem levDist_self (s : List α) : levDist s s = 0 := by
  induction s with
  | nil => rw [levDist_nil_left]; rfl
  | cons a s ih =>
    rw [levDist_cons_cons, ih]
    simp

theorem levDist_cons_left_le (a : α) (s t : List α) :
    levDist (a :: s) t ≤ levDist s t + 1 := by
  cases t with
  | nil => rw [levDist_nil_right, levDist_nil_right]; simp
  | cons b t => rw [levDist_cons_cons]; exact min_le_left _ _

theorem levDist_cons_right_le (b : α) (s t : List α) :
    levDist s (b :: t) ≤ levDist s t + 1 := by
  rw [levDist_comm s (b :: t), levDist_comm s t]
  exact levDist_cons_left_le b t s

theorem levDist_le_cons_left (a : α) (s t : List α) :
    levDist s t ≤ levDist (a :: s) t + 1 := by
  induction t with
  | nil => rw [levDist_nil_right, levDist_nil_right]; simp only [List.length_cons]; omega
  | cons b t ih =>
    rw [levDist_cons_cons]
    have h1 := levDist_cons_right_le b s t
    rcases min_choice (levDist s (b :: t) + 1)
      (min (levDist (a :: s) t + 1) (levDist s t + if a = b then 0 else 1)) with h | h
    · rw [h]; omega
    · rw [h]
      rcases min_choice (levDist (a :: s) t + 1) (levDist s t + if a = b then 0 else 1) with h2 | h2
      · rw [h2]; omega
      · rw [h2]; omega

/-- Lifting a one-step bound under a common head. -/
theorem levDist_cons_congr_le (x : α) (u v : List α)
    (h : ∀ t, levDist u t ≤ levDist v t + 1) (t : List α) :
    levDist (x :: u) t ≤ levDist (x :: v) t + 1 := by
  induction t with
  | nil =>
    have := h []
    rw [levDist_nil_right, levDist_nil_right] at this
    rw [levDist_nil_right, levDist_nil_right]
    simp only [List.length_cons]
    omega
  | cons b t ih =>
    have h1 := levDist_cons_left_le x u (b :: t)
    have h2 := h (b :: t)
    have h3 := h t
    have e1 := levDist_cons_cons x b u t
    have e2 := levDist_cons_cons x b v t
    have l1 : levDist (x :: u) (b :: t) ≤ levDist (x :: u) t + 1 := by
      rw [e1]; exact le_trans (min_le_right _ _) (min_le_left _ _)
    have l2 : levDist (x :: u) (b :: t) ≤ levDist u t + if x = b then 0 else 1 := by
      rw [e1]; exact le_trans (min_le_right _ _) (min_le_right _ _)
    rw [e2]
    rcases min_choice (levDist v (b :: t) + 1)
      (min (levDist (x :: v) t + 1) (levDist v t + if x = b then 0 else 1)) with k | k
    · rw [k]; omega
    · rw [k]
      rcases min_choice (levDist (x :: v) t + 1) (levDist v t + if x = b then 0 else 1) with k2 | k2
      · rw [k2]; omega
      · rw [k2]; omega

theorem levDist_subst_le (a b : α) (r t : List α) :
    levDist (a :: r) t ≤ levDist (b :: r) t + 1 := by
  induction t with
  | nil => rw [levDist_nil_right, levDist_nil_right]; simp
  | cons c t ih =>
    have e1 := levDist_cons_cons a c r t
    have e2 := levDist_cons_cons b c r t
    have l0 : levDist (a :: r) (c :: t) ≤ levDist r (c :: t) + 1 := by
      rw [e1]; exact min_le_left _ _
    have l1 : levDist (a :: r) (c :: t) ≤ levDist (a :: r) t + 1 := by
      rw [e1]; exact le_trans (min_le_right _ _) (min_le_left _ _)
    have l2 : levDist (a :: r) (c :: t) ≤ levDist r t + if a = c then 0 else 1 := by
      rw [e1]; exact le_trans (min_le_right _ _) (min_le_right _ _)
    have l3 : (if a = c then 0 else 1 : Nat) ≤ 1 := by split <;> omega
    rw [e2]
    rcases min_choice (levDist r (c :: t) + 1)
      (min (levDist (b :: r) t + 1) (levDist r t + if b = c then 0 else 1)) with k | k
    · rw [k]; omega
    · rw [k]
      rcases min_choice (levDist (b :: r) t + 1) (levDist r t + if b = c then 0 else 1) with k2 | k2
      · rw [k2]; omega
      · rw [k2]; omega

theorem levDist_append_congr_le (l u v : List α)
    (h : ∀ t, levDist u t ≤ levDist v t + 1) (t : List α) :
    levDist (l ++ u) t ≤ levDist (l ++ v) t + 1 := by
  induction l generalizing t with
  | nil => simpa using h t
  | cons x l ih =>
    simp only [List.cons_append]
    exact levDist_cons_congr_le x (l ++ u) (l ++ v) ih t

/-- One edit changes the recursion's value by at most one. -/
theorem levDist_editStep_le {s u : List α} (h : EditStep s u) (t : List α) :
    levDist s t ≤ levDist u t + 1 := by
  cases h with
  | insertion l r a =>
    exact levDist_append_congr_le l r (a :: r) (fun t => levDist_le_cons_left a r t) t
  | deletion l r a =>
    exact levDist_append_congr_le l (a :: r) r (fun t => levDist_cons_left_le a r t) t
  | substitution l r a b hab =>
    exact levDist_append_congr_le l (a :: r) (b :: r) (fun t => levDist_subst_le a b r t) t

/-- No edit script is shorter than the value of the recursion. -/
theorem levDist_le_of_editsIn {n : Nat} {s t : List α} (h : EditsIn n s t) :
    levDist s t ≤ n := by
  induction h with
  | done s => rw [levDist_self]
  | @step n s u t hs _ ih =>
    have := levDist_editStep_le hs t
    omega

/-- The value of the recursion is reached by an edit script. -/
theorem editsIn_levDist (s t : List α) : EditsIn (levDist s t) s t := by
  induction s generalizing t with
  | nil => rw [levDist_nil_left]; exact editsIn_nil_left t
  | cons a s ihs =>
    induction t with
    | nil => rw [levDist_nil_right]; exact editsIn_nil_right (a :: s)
    | cons b t iht =>
      rw [levDist_cons_cons]
      rcases min_choice (levDist s (b :: t) + 1)
        (min (levDist (a :: s) t + 1) (levDist s t + if a = b then 0 else 1)) with k | k
      · rw [k]
        exact EditsIn.step (EditStep.deletion [] s a) (ihs (b :: t))
      · rw [k]
        rcases min_choice (levDist (a :: s) t + 1)
          (levDist s t + if a = b then 0 else 1) with k2 | k2
        · rw [k2]
          exact EditsIn.step (EditStep.insertion [] (a :: s) b) (editsIn_cons b iht)
        · rw [k2]
          by_cases hab : a = b
          · subst hab
            simpa using editsIn_cons a (ihs t)
          · simp only [hab, if_false]
            exact EditsIn.step (EditStep.substitution [] s a b hab) (editsIn_cons b (ihs t))

/-- The recursion computes the edit distance. -/
theorem isEditDistance_levDist (s t : List α) : IsEditDistance s t (levDist s t) :=
  ⟨editsIn_levDist s t, fun _ h => levDist_le_of_editsIn h⟩

/-- The recursion run from the last elements also computes the edit distance. -/
theorem isEditDistance_levDist_reverse (s t : List α) :
    IsEditDistance s t (levDist s.reverse t.reverse) := by
  constructor
  · have := editsIn_reverse (editsIn_levDist s.reverse t.reverse)
    simpa using this
  · intro n h
    exact levDist_le_of_editsIn (editsIn_reverse h)

theorem levDist_le_max (s t : List α) : levDist s t ≤ max s.length t.length := by
  induction s generalizing t with
  | nil => rw [levDist_nil_left]; simp
  | cons a s ih =>
    cases t with
    | nil => rw [levDist_nil_right]; simp
    | cons b t =>
      rw [levDist_cons_cons]
      have h1 := ih t
      have h2 : (if a = b then 0 else 1 : Nat) ≤ 1 := by split <;> omega
      have h3 : min (levDist s (b :: t) + 1)
          (min (levDist (a :: s) t + 1) (levDist s t + if a = b then 0 else 1))
          ≤ levDist s t + if a = b then 0 else 1 :=
        le_trans (min_le_right _ _) (min_le_right _ _)
      simp only [List.length_cons]
      omega

end EditTheory

/-! ## Checked indexing and loops -/

theorem index_natCast {α : Type} (xs : List α) (n : Nat) (d : α) (h : n < xs.length) :
    index xs (n : Int) = .ok (xs.getD n d) := by
  unfold index
  have h0 : ¬ ((n : Int) < 0) := by omega
  simp [h0, List.getD, List.getElem?_eq_getElem h]

theorem index_ok_lt {α : Type} (xs : List α) (n : Nat) (v : α)
    (h : index xs (n : Int) = .ok v) : n < xs.length := by
  unfold index at h
  have h0 : ¬ ((n : Int) < 0) := by omega
  simp only [h0, if_false, Int.toNat_ofNat] at h
  by_contra hn
  rw [List.getElem?_eq_none (by omega)] at h
  simp at h

theorem assign_natCast {α : Type} (xs : List α) (n : Nat) (v : α) (h : n < xs.length) :
    assign xs (n : Int) v = .ok (xs.set n v) := by
  unfold assign
  simp [h]

theorem assign_ok_inv {α : Type} (xs ys : List α) (n : Nat) (v : α)
    (h : assign xs (n : Int) v = .ok ys) : n < xs.length ∧ ys = xs.set n v := by
  unfold assign at h
  by_cases hn : n < xs.length
  · simp [hn] at h
    exact ⟨hn, h.symm⟩
  · simp [hn] at h

theorem index2_natCast (m : matrix) (y x i j : Nat) (hm : Dims y x m)
    (hi : i < y) (hj : j < x) : index2 m (i : Int) (j : Int) = .ok (cellAt m i j) := by
  unfold index2
  rw [index_natCast m i [] (by rw [hm.1]; exact hi)]
  show index (m.getD i []) (j : Int) = _
  rw [index_natCast (m.getD i []) j 0 (by rw [hm.2 i hi]; exact hj)]
  rfl

theorem assign2_natCast (m : matrix) (y x i j : Nat) (v : Int) (hm : Dims y x m)
    (hi : i < y) (hj : j < x) : assign2 m (i : Int) (j : Int) v = .ok (setCell m i j v) := by
  unfold assign2
  rw [index_natCast m i [] (by rw [hm.1]; exact hi)]
  show (assign (m.getD i []) (j : Int) v >>= fun row => assign m (i : Int) row) = _
  rw [assign_natCast (m.getD i []) j v (by rw [hm.2 i hi]; exact hj)]
  show assign m (i : Int) _ = _
  rw [assign_natCast m i _ (by rw [hm.1]; exact hi)]
  rfl

theorem Dims.setCell {y x : Nat} {m : matrix} (hm : Dims y x m) (i j : Nat) (v : Int) :
    Dims y x (setCell m i j v) := by
  refine ⟨by simp [Goutil.setCell, hm.1], ?_⟩
  intro k hk
  unfold Goutil.setCell
  by_cases hik : i = k
  · subst hik
    have := hm.2 i hk
    simp [List.getD, List.getElem?_set, hm.1, hk] at this ⊢
    exact this
  · have := hm.2 k hk
    simp [List.getD, List.getElem?_set, hik] at this ⊢
    exact this

theorem cellAt_setCell {y x : Nat} {m : matrix} (hm : Dims y x m) (i j : Nat) (v : Int)
    (hi : i < y) (hj : j < x) (k l : Nat) :
    cellAt (setCell m i j v) k l = if k = i ∧ l = j then v else cellAt m k l := by
  unfold cellAt Goutil.setCell
  have hlen := hm.2 i hi
  by_cases hik : i = k
  · subst hik
    by_cases hjl : j = l
    · subst hjl
      simp [List.getD, List.getElem?_set, hm.1, hi] at hlen ⊢
      simp [hlen, hj]
    · have hlj : ¬ l = j := fun h => hjl h.symm
      simp [List.getD, List.getElem?_set, hm.1, hi, hjl, hlj]
  · have hki : ¬ k = i := fun h => hik h.symm
    simp [List.getD, List.getElem?_set, hik, hki]

/-- Loop rule: an invariant that every iteration establishes for the next
index holds when the loop ends, and the loop does end without a panic. -/
theorem forRange_total {σ : Type} (body : Nat → σ → Except Fault σ) (P : Nat → σ → Prop) :
    ∀ (n lo : Nat) (st : σ), P lo st →
      (∀ k st, lo ≤ k → k < lo + n → P k st → ∃ st', body k st = .ok st' ∧ P (k + 1) st') →
      ∃ st', forRange body lo n st = .ok st' ∧ P (lo + n) st' := by
  intro n
  induction n with
  | zero => intro lo st h0 _; exact ⟨st, rfl, h0⟩
  | succ n ih =>
    intro lo st h0 hstep
    obtain ⟨st1, hb, hP⟩ := hstep lo st (le_refl _) (by omega) h0
    obtain ⟨st2, hf, hP2⟩ := ih (lo + 1) st1 hP
      (fun k st hk hk2 hPk => hstep k st (by omega) (by omega) hPk)
    refine ⟨st2, ?_, ?_⟩
    · show (body lo st >>= forRange body (lo + 1) n) = _
      rw [hb]; exact hf
    · have e : lo + (n + 1) = lo + 1 + n := by omega
      rw [e]; exact hP2

/-- Loop rule: an invariant preserved by every iteration that returns holds of
the final state whenever the loop returns. -/
theorem forRange_partial {σ : Type} (body : Nat → σ → Except Fault σ) (P : Nat → σ → Prop) :
    ∀ (n lo : Nat) (st st' : σ), P lo st →
      (∀ k st st', lo ≤ k → k < lo + n → P k st → body k st = .ok st' → P (k + 1) st') →
      forRange body lo n st = .ok st' → P (lo + n) st' := by
  intro n
  induction n with
  | zero =>
    intro lo st st' h0 _ h
    have : st = st' := by
      have h2 : (Except.ok st : Except Fault σ) = .ok st' := h
      injection h2
    subst this; exact h0
  | succ n ih =>
    intro lo st st' h0 hstep h
    have h2 : (body lo st >>= forRange body (lo + 1) n) = .ok st' := h
    cases hb : body lo st with
    | error e => rw [hb] at h2; cases h2
    | ok st1 =>
      rw [hb] at h2
      have hP := hstep lo st st1 (le_refl _) (by omega) h0 hb
      have := ih (lo + 1) st1 st' hP
        (fun k st st' hk hk2 hPk => hstep k st st' (by omega) (by omega) hPk) h2
      have e : lo + (n + 1) = lo + 1 + n := by omega
      rw [e]; exact this

/-! ## The triviality predicate -/

theorem checkTrivial_iff (s t : List UInt8) :
    checkTrivial s t = true ↔ (s = t ∨ s = [] ∨ t = []) := by
  unfold checkTrivial stringsCompare
  by_cases hst : s = t
  · simp [hst]
  · by_cases hl : stringLess s t = true
    · simp [hst, hl, List.length_eq_zero]
    · simp [hst, hl, List.length_eq_zero]

theorem checkTrivial_eq_false {s t : List UInt8} (h : NonTrivial s t) :
    checkTrivial s t = false := by
  cases hc : checkTrivial s t with
  | false => rfl
  | true =>
    rcases (checkTrivial_iff s t).1 hc with h1 | h1 | h1
    · exact absurd h1 h.1
    · exact absurd h1 h.2.1
    · exact absurd h1 h.2.2

theorem bind_ok_inv {α β : Type} {x : Except Fault α} {f : α → Except Fault β} {b : β}
    (h : (x >>= f) = .ok b) : ∃ a, x = .ok a ∧ f a = .ok b := by
  cases x with
  | error e => cases h
  | ok a => exact ⟨a, rfl, h⟩

theorem assign2_ok_inv (m m' : matrix) (i j : Nat) (v : Int)
    (h : assign2 m (i : Int) (j : Int) v = .ok m') :
    i < m.length ∧ j < (m.getD i []).length ∧ m' = setCell m i j v := by
  unfold assign2 at h
  obtain ⟨row, hrow, h⟩ := bind_ok_inv h
  have hi := index_ok_lt m i row hrow
  rw [index_natCast m i [] hi] at hrow
  have hrow' : m.getD i [] = row := by injection hrow
  subst hrow'
  obtain ⟨row2, hrow2, h⟩ := bind_ok_inv h
  obtain ⟨hj, e2⟩ := assign_ok_inv _ _ j v hrow2
  obtain ⟨_, e3⟩ := assign_ok_inv _ _ i _ h
  subst e2
  exact ⟨hi, hj, e3⟩

/-! ## The full-matrix builder -/

theorem allocRows_spec (y x : Nat) :
    ∃ m, forRange (fun z (m : matrix) => assign m z (List.replicate x (0 : Int))) 0
        (List.replicate y ([] : List Int)).length (List.replicate y []) = .ok m ∧
      Dims y x m ∧ ∀ k l, k < y → cellAt m k l = 0 := by
  have h := forRange_total (fun z (m : matrix) => assign m z (List.replicate x (0 : Int)))
    (fun z m => m.length = y ∧ ∀ i, i < z → m.getD i [] = List.replicate x 0)
    (List.replicate y ([] : List Int)).length 0 (List.replicate y [])
    ⟨by simp, fun i hi => absurd hi (Nat.not_lt_zero i)⟩
    (by
      intro k m _ hk hP
      simp only [List.length_replicate, Nat.zero_add] at hk
      refine ⟨m.set k (List.replicate x 0), assign_natCast m k _ (by rw [hP.1]; exact hk), ?_, ?_⟩
      · simp [hP.1]
      · intro i hi
        by_cases hik : k = i
        · subst hik
          simp [List.getD, List.getElem?_set, hP.1, hk]
        · have := hP.2 i (by omega)
          simp [List.getD, List.getElem?_set, hik] at this ⊢
          exact this)
  obtain ⟨m, hm, hlen, hrows⟩ := h
  simp only [List.length_replicate, Nat.zero_add] at hrows
  refine ⟨m, hm, ⟨hlen, fun i hi => by rw [hrows i hi]; simp⟩, ?_⟩
  intro k l hk
  unfold cellAt
  rw [hrows k hk]
  simp only [List.getD_eq_getElem?_getD, List.getElem?_replicate]
  split <;> rfl

theorem initMatrix_spec (y x : Nat) (hy : 0 < y) (hx : 0 < x) :
    ∃ m, initMatrix y x = .ok m ∧ Dims y x m ∧ ∀ k l, k < y → l < x →
      cellAt m k l = if l = 0 then (k : Int) else if k = 0 then (l : Int) else 0 := by
  obtain ⟨m1, h1, hd1, hc1⟩ := allocRows_spec y x
  -- first column
  have h2 := forRange_total (fun i (m : matrix) => assign2 m i 0 i)
    (fun k m => Dims y x m ∧ ∀ i l, i < y → l < x →
      cellAt m i l = if l = 0 ∧ i < k then (i : Int) else 0)
    (y - 1) 1 m1
    ⟨hd1, fun i l hi _ => by
      rw [hc1 i l hi]
      split
      · rename_i h; have : i = 0 := by omega
        subst this; rfl
      · rfl⟩
    (by
      intro k m hk1 hk hP
      have hky : k < y := by omega
      have ha := assign2_natCast m y x k 0 k hP.1 hky hx
      refine ⟨setCell m k 0 k, by simpa using ha, hP.1.setCell k 0 k, ?_⟩
      intro i l hi hl
      rw [cellAt_setCell hP.1 k 0 k hky hx i l, hP.2 i l hi hl]
      by_cases hl0 : l = 0
      · by_cases hik : i = k
        · subst hik; simp [hl0]
        · have : ¬ (i = k ∧ l = 0) := fun h => hik h.1
          rw [if_neg this]
          by_cases hlt : i < k
          · rw [if_pos ⟨hl0, hlt⟩, if_pos ⟨hl0, by omega⟩]
          · rw [if_neg (fun h => hlt h.2), if_neg (fun h => by omega)]
      · rw [if_neg (fun h => hl0 h.2), if_neg (fun h => hl0 h.1), if_neg (fun h => hl0 h.1)])
  obtain ⟨m2, h2, hd2, hc2⟩ := h2
  have e2 : 1 + (y - 1) = y := by omega
  rw [e2] at hc2
  -- first row
  have h3 := forRange_total (fun j (m : matrix) => assign2 m 0 j j)
    (fun k m => Dims y x m ∧ ∀ i l, i < y → l < x →
      cellAt m i l =
        if l = 0 then (i : Int) else if i = 0 ∧ l < k then (l : Int) else 0)
    (x - 1) 1 m2
    ⟨hd2, fun i l hi hl => by
      rw [hc2 i l hi hl]
      by_cases hl0 : l = 0
      · rw [if_pos ⟨hl0, hi⟩, if_pos hl0]
      · rw [if_neg (fun h => hl0 h.1), if_neg hl0, if_neg (fun h => by omega)]⟩
    (by
      intro k m hk1 hk hP
      have hkx : k < x := by omega
      have ha := assign2_natCast m y x 0 k k hP.1 hy hkx
      refine ⟨setCell m 0 k k, by simpa using ha, hP.1.setCell 0 k k, ?_⟩
      intro i l hi hl
      rw [cellAt_setCell hP.1 0 k k hy hkx i l, hP.2 i l hi hl]
      by_cases hil : i = 0 ∧ l = k
      · obtain ⟨hi0, hlk⟩ := hil
        subst hi0; subst hlk
        have hl0 : ¬ l = 0 := by omega
        simp [hl0]
      · rw [if_neg hil]
        by_cases hl0 : l = 0
        · rw [if_pos hl0, if_pos hl0]
        · rw [if_neg hl0, if_neg hl0]
          by_cases hc : i = 0 ∧ l < k
          · rw [if_pos hc, if_pos ⟨hc.1, by omega⟩]
          · rw [if_neg hc, if_neg (fun h => hc ⟨h.1, by
              have : l ≠ k := fun e => hil ⟨h.1, e⟩
              omega⟩)])
  obtain ⟨m3, h3, hd3, hc3⟩ := h3
  have e3 : 1 + (x - 1) = x := by omega
  rw [e3] at hc3
  refine ⟨m3, ?_, hd3, ?_⟩
  · unfold initMatrix
    show (forRange (fun z (m : matrix) => assign m z (List.replicate x (0 : Int))) 0
        (List.replicate y ([] : List Int)).length (List.replicate y []) >>= fun m =>
          forRange (fun i (m : matrix) => assign2 m i 0 i) 1 (y - 1) m >>= fun m =>
            forRange (fun j (m : matrix) => assign2 m 0 j j) 1 (x - 1) m) = _
    rw [h1]
    show (forRange (fun i (m : matrix) => assign2 m i 0 i) 1 (y - 1) m1 >>= fun m =>
            forRange (fun j (m : matrix) => assign2 m 0 j j) 1 (x - 1) m) = _
    rw [h2]
    exact h3
  · intro k l hk hl
    rw [hc3 k l hk hl]
    by_cases hl0 : l = 0
    · rw [if_pos hl0, if_pos hl0]
    · rw [if_neg hl0, if_neg hl0]
      by_cases hk0 : k = 0
      · rw [if_pos ⟨hk0, hl⟩, if_pos hk0]
      · rw [if_neg (fun h => hk0 h.1), if_neg hk0]

theorem Filled.of_iff {F : Nat → Nat → Int} {y x i j i' j' : Nat} {m : matrix}
    (h : Filled F y x i j m)
    (hiff : ∀ k l, k < y → l < x →
      ((k = 0 ∨ l = 0 ∨ k < i ∨ (k = i ∧ l < j)) ↔
        (k = 0 ∨ l = 0 ∨ k < i' ∨ (k = i' ∧ l < j')))) :
    Filled F y x i' j' m := by
  refine ⟨h.1, fun k l hk hl => ?_⟩
  rw [h.2 k l hk hl]
  exact if_congr (hiff k l hk hl) rfl rfl

/-- One step of the fill loop, for a recurrence that returns `F i j` on the
tableau as it stands when cell `(i, j)` is written. -/
theorem matrixCell_spec (s t : List UInt8) (costFn : costFunc) (F : Nat → Nat → Int)
    (hcost : ∀ m i j, 1 ≤ i → i < s.length + 1 → 1 ≤ j → j < t.length + 1 →
      Filled F (s.length + 1) (t.length + 1) i j m →
      costFn m i j (substCost s t i j) = .ok (F i j))
    (i j : Nat) (hi1 : 1 ≤ i) (hi : i < s.length + 1) (hj1 : 1 ≤ j) (hj : j < t.length + 1)
    (m : matrix) (hm : Filled F (s.length + 1) (t.length + 1) i j m) :
    ∃ m', matrixCell s t costFn i j m = .ok m' ∧
      Filled F (s.length + 1) (t.length + 1) i (j + 1) m' := by
  have ei : (i : Int) - 1 = ((i - 1 : Nat) : Int) := by omega
  have ej : (j : Int) - 1 = ((j - 1 : Nat) : Int) := by omega
  refine ⟨setCell m i j (F i j), ?_, hm.1.setCell i j _, ?_⟩
  · unfold matrixCell
    rw [ei, ej, index_natCast s (i - 1) 0 (by omega), index_natCast t (j - 1) 0 (by omega)]
    show (costFn m i j (substCost s t i j) >>= fun v => assign2 m i j v) = _
    rw [hcost m i j hi1 hi hj1 hj hm]
    exact assign2_natCast m _ _ i j _ hm.1 hi hj
  · intro k l hk hl
    rw [cellAt_setCell hm.1 i j _ hi hj k l, hm.2 k l hk hl]
    by_cases hkl : k = i ∧ l = j
    · obtain ⟨h1, h2⟩ := hkl
      subst h1; subst h2
      rw [if_pos ⟨rfl, rfl⟩, if_pos (by omega)]
    · rw [if_neg hkl]
      exact if_congr (by omega) rfl rfl

theorem matrixRow_spec (s t : List UInt8) (costFn : costFunc) (F : Nat → Nat → Int)
    (hcost : ∀ m i j, 1 ≤ i → i < s.length + 1 → 1 ≤ j → j < t.length + 1 →
      Filled F (s.length + 1) (t.length + 1) i j m →
      costFn m i j (substCost s t i j) = .ok (F i j))
    (i : Nat) (hi1 : 1 ≤ i) (hi : i < s.length + 1)
    (m : matrix) (hm : Filled F (s.length + 1) (t.length + 1) i 1 m) :
    ∃ m', matrixRow s t costFn (t.length + 1) i m = .ok m' ∧
      Filled F (s.length + 1) (t.length + 1) (i + 1) 1 m' := by
  obtain ⟨m', h, hP⟩ := forRange_total (matrixCell s t costFn i)
    (fun j m => Filled F (s.length + 1) (t.length + 1) i j m) (t.length + 1 - 1) 1 m hm
    (fun j m hj1 hj hP => matrixCell_spec s t costFn F hcost i j hi1 hi hj1 (by omega) m hP)
  exact ⟨m', h, hP.of_iff (fun k l _ hl => by omega)⟩

/-- The builder returns the tableau of `F` for every recurrence that returns
`F i j` when cell `(i, j)` is written. -/
theorem EditDistanceMatrix_spec (s t : List UInt8) (costFn : costFunc) (F : Nat → Nat → Int)
    (hnt : NonTrivial s t) (hF0 : ∀ i, i ≤ s.length → F i 0 = i)
    (hF1 : ∀ j, j ≤ t.length → F 0 j = j)
    (hcost : ∀ m i j, 1 ≤ i → i < s.length + 1 → 1 ≤ j → j < t.length + 1 →
      Filled F (s.length + 1) (t.length + 1) i j m →
      costFn m i j (substCost s t i j) = .ok (F i j)) :
    ∃ M, EditDistanceMatrix s t costFn = .ok (some M, none) ∧
      Dims (s.length + 1) (t.length + 1) M ∧
      ∀ i j, i ≤ s.length → j ≤ t.length → cellAt M i j = F i j := by
  obtain ⟨m0, h0, hd0, hc0⟩ := initMatrix_spec (s.length + 1) (t.length + 1)
    (Nat.succ_pos _) (Nat.succ_pos _)
  have hinit : Filled F (s.length + 1) (t.length + 1) 1 1 m0 := by
    refine ⟨hd0, fun k l hk hl => ?_⟩
    rw [hc0 k l hk hl]
    by_cases hl0 : l = 0
    · subst hl0; rw [if_pos rfl, if_pos (by omega), hF0 k (by omega)]
    · rw [if_neg hl0]
      by_cases hk0 : k = 0
      · subst hk0; rw [if_pos rfl, if_pos (by omega), hF1 l (by omega)]
      · rw [if_neg hk0, if_neg (by omega)]
  obtain ⟨M, h, hP⟩ := forRange_total (matrixRow s t costFn (t.length + 1))
    (fun i m => Filled F (s.length + 1) (t.length + 1) i 1 m) (s.length + 1 - 1) 1 m0 hinit
    (fun i m hi1 hi hP => matrixRow_spec s t costFn F hcost i hi1 (by omega) m hP)
  refine ⟨M, ?_, hP.1, ?_⟩
  · unfold EditDistanceMatrix
    rw [checkTrivial_eq_false hnt]
    show (initMatrix (s.length + 1) (t.length + 1) >>= fun m =>
      forRange (matrixRow s t costFn (t.length + 1)) 1 (s.length + 1 - 1) m >>= fun m =>
        pure (some m, none)) = _
    rw [h0]
    show (forRange (matrixRow s t costFn (t.length + 1)) 1 (s.length + 1 - 1) m0 >>= fun m =>
        pure (some m, none)) = _
    rw [h]
    rfl
  · intro i j hi hj
    rw [hP.2 i j (by omega) (by omega), if_pos (by omega)]

/-! ## The Levenshtein tableau -/

theorem take_succ_reverse {α : Type} (l : List α) (i : Nat) (d : α) (h : i < l.length) :
    (l.take (i + 1)).reverse = l.getD i d :: (l.take i).reverse := by
  rw [List.take_succ, List.getElem?_eq_getElem h]
  simp [List.getD, List.getElem?_eq_getElem h]

theorem levCell_zero_right (s t : List UInt8) (i : Nat) (hi : i ≤ s.length) :
    levCell s t i 0 = i := by
  unfold levCell
  rw [List.take_zero, List.reverse_nil, levDist_nil_right]
  simp [hi]

theorem levCell_zero_left (s t : List UInt8) (j : Nat) (hj : j ≤ t.length) :
    levCell s t 0 j = j := by
  unfold levCell
  rw [List.take_zero, List.reverse_nil, levDist_nil_left]
  simp [hj]

theorem levCell_nonneg (s t : List UInt8) (i j : Nat) : 0 ≤ levCell s t i j := by
  unfold levCell
  exact Int.natCast_nonneg _

/-- The recurrence satisfied by the table of the Levenshtein recursion. -/
theorem levCell_succ (s t : List UInt8) (i j : Nat) (hi : i < s.length) (hj : j < t.length) :
    levCell s t (i + 1) (j + 1) =
      min (levCell s t i (j + 1) + 1)
        (min (levCell s t (i + 1) j + 1) (levCell s t i j + substCost s t (i + 1) (j + 1))) := by
  unfold levCell substCost
  rw [take_succ_reverse s i 0 hi, take_succ_reverse t j 0 hj, levDist_cons_cons,
    ← take_succ_reverse s i 0 hi, ← take_succ_reverse t j 0 hj]
  simp only [Nat.add_sub_cancel]
  by_cases hab : s.getD i 0 = t.getD j 0
  · simp [hab]
  · simp [hab]

theorem MinInt_three (a b c : Int) : MinInt [a, b, c] = .ok (min a (min b c)) := by
  simp [MinInt, List.foldl, min_assoc]

theorem MinInt_four (z a b c : Int) : MinInt [z, a, b, c] = .ok (min z (min a (min b c))) := by
  simp [MinInt, List.foldl, min_assoc]

/-- The recurrence `LevenschteinCost` returns the Levenshtein recursion's value when cell
`(i, j)` is written. -/
theorem LevenschteinCost_spec (s t : List UInt8) (m : matrix) (i j : Nat)
    (hi1 : 1 ≤ i) (hi : i < s.length + 1) (hj1 : 1 ≤ j) (hj : j < t.length + 1)
    (hm : Filled (levCell s t) (s.length + 1) (t.length + 1) i j m) :
    LevenschteinCost m i j (substCost s t i j) = .ok (levCell s t i j) := by
  have ei : (i : Int) - 1 = ((i - 1 : Nat) : Int) := by omega
  have ej : (j : Int) - 1 = ((j - 1 : Nat) : Int) := by omega
  unfold LevenschteinCost
  rw [ei, ej, index2_natCast m _ _ (i - 1) j hm.1 (by omega) hj,
    index2_natCast m _ _ i (j - 1) hm.1 hi (by omega),
    index2_natCast m _ _ (i - 1) (j - 1) hm.1 (by omega) (by omega)]
  show MinInt [cellAt m (i - 1) j + 1, cellAt m i (j - 1) + 1,
    cellAt m (i - 1) (j - 1) + substCost s t i j] = _
  rw [MinInt_three, hm.2 (i - 1) j (by omega) hj, hm.2 i (j - 1) hi (by omega),
    hm.2 (i - 1) (j - 1) (by omega) (by omega),
    if_pos (by omega), if_pos (by omega), if_pos (by omega)]
  obtain ⟨i', rfl⟩ : ∃ i', i = i' + 1 := ⟨i - 1, by omega⟩
  obtain ⟨j', rfl⟩ : ∃ j', j = j' + 1 := ⟨j - 1, by omega⟩
  simp only [Nat.add_sub_cancel]
  rw [levCell_succ s t i' j' (by omega) (by omega)]

/-- The Levenshtein tableau: the builder returns the table of the recursion. -/
theorem EditDistanceMatrix_lev (s t : List UInt8) (hnt : NonTrivial s t) :
    ∃ M, EditDistanceMatrix s t LevenschteinCost = .ok (some M, none) ∧
      Dims (s.length + 1) (t.length + 1) M ∧
      ∀ i j, i ≤ s.length → j ≤ t.length → cellAt M i j = levCell s t i j :=
  EditDistanceMatrix_spec s t LevenschteinCost (levCell s t) hnt
    (fun i hi => levCell_zero_right s t i hi) (fun j hj => levCell_zero_left s t j hj)
    (fun m i j hi1 hi hj1 hj hm => LevenschteinCost_spec s t m i j hi1 hi hj1 hj hm)

theorem isEditDistance_levCell (s t : List UInt8) (i j : Nat) :
    ∃ d : Nat, levCell s t i j = d ∧ IsEditDistance (s.take i) (t.take j) d :=
  ⟨_, rfl, isEditDistance_levDist_reverse (s.take i) (t.take j)⟩

/-! ## The rolling-buffer distance -/

theorem ok_bind {α β : Type} (a : α) (f : α → Except Fault β) :
    (Except.ok a >>= f) = f a := rfl

theorem getD_set_int (v : List Int) (n l : Nat) (a : Int) (hn : n < v.length) :
    (v.set n a).getD l 0 = if l = n then a else v.getD l 0 := by
  by_cases h : l = n
  · subst h
    simp [List.getD_eq_getElem?_getD, List.getElem?_set, hn]
  · have h2 : ¬ n = l := fun e => h e.symm
    simp [List.getD_eq_getElem?_getD, List.getElem?_set, h, h2]

theorem rollInit_spec (s t : List UInt8) :
    ∃ v0, rollInit t = .ok (v0, List.replicate (t.length + 1) 0) ∧
      RowIs (levCell s t) (t.length + 1) 0 v0 := by
  obtain ⟨v0, h, hlen, hP⟩ := forRange_total
    (fun i (v0 : List Int) => assign v0 (i : Int) (i : Int))
    (fun k v => v.length = t.length + 1 ∧ ∀ l, l < k → v.getD l 0 = (l : Int))
    (List.replicate (t.length + 1) (0 : Int)).length 0 (List.replicate (t.length + 1) 0)
    ⟨by simp, fun l hl => absurd hl (Nat.not_lt_zero l)⟩
    (by
      intro k v _ hk hP
      simp only [List.length_replicate, Nat.zero_add] at hk
      have hkv : k < v.length := by rw [hP.1]; exact hk
      refine ⟨v.set k k, assign_natCast v k _ hkv, by simp [hP.1], ?_⟩
      intro l hl
      rw [getD_set_int v k l _ hkv]
      by_cases hlk : l = k
      · rw [if_pos hlk, hlk]
      · rw [if_neg hlk]; exact hP.2 l (by omega))
  simp only [List.length_replicate, Nat.zero_add] at hP
  refine ⟨v0, ?_, hlen, fun l hl => ?_⟩
  · unfold rollInit
    simp only [h, ok_bind]
    rfl
  · rw [hP l hl, levCell_zero_left s t l (by omega)]

theorem rollCell_spec (s t : List UInt8) (v0 v1 : List Int) (i j : Nat)
    (hi : i < s.length) (hj : j < t.length)
    (h0 : RowIs (levCell s t) (t.length + 1) i v0)
    (h1 : v1.length = t.length + 1)
    (h1c : ∀ l, l ≤ j → v1.getD l 0 = levCell s t (i + 1) l) :
    ∃ w, rollCell s t v0 i j v1 = .ok w ∧ w.length = t.length + 1 ∧
      ∀ l, l ≤ j + 1 → w.getD l 0 = levCell s t (i + 1) l := by
  have ej : (j : Int) + 1 = ((j + 1 : Nat) : Int) := by omega
  have hj1 : j + 1 < v1.length := by omega
  refine ⟨v1.set (j + 1) (levCell s t (i + 1) (j + 1)), ?_, by simp [h1], ?_⟩
  · unfold rollCell
    rw [ej, index_natCast s i 0 hi, index_natCast t j 0 hj,
      index_natCast v1 j 0 (by omega), index_natCast v0 (j + 1) 0 (by rw [h0.1]; omega),
      index_natCast v0 j 0 (by rw [h0.1]; omega)]
    simp only [ok_bind, MinInt_three]
    rw [h1c j (le_refl _), h0.2 (j + 1) (by omega), h0.2 j (by omega),
      assign_natCast v1 (j + 1) _ hj1, levCell_succ s t i j hi hj]
    have e : (if s.getD i 0 ≠ t.getD j 0 then (1 : Int) else 0) =
        substCost s t (i + 1) (j + 1) := by
      unfold substCost; simp only [Nat.add_sub_cancel]
    rw [e, min_left_comm]
  · intro l hl
    rw [getD_set_int v1 (j + 1) l _ hj1]
    by_cases hlj : l = j + 1
    · rw [if_pos hlj, hlj]
    · rw [if_neg hlj]; exact h1c l (by omega)

/-- One outer iteration of the rolling-buffer loop: from row `i` in `v0` to row
`i + 1` in both `v0` and `v1`. -/
theorem rollRow_spec (s t : List UInt8) (i : Nat) (v : List Int × List Int)
    (hi : i < s.length) (h0 : RowIs (levCell s t) (t.length + 1) i v.1)
    (h1 : v.2.length = t.length + 1) :
    ∃ w, rollRow s t i v = .ok w ∧ RowIs (levCell s t) (t.length + 1) (i + 1) w.1 ∧
      RowIs (levCell s t) (t.length + 1) (i + 1) w.2 := by
  have ei : (i : Int) + 1 = ((i + 1 : Nat) : Int) := by omega
  have hpos : 0 < v.2.length := by omega
  have ha : assign v.2 0 ((i : Int) + 1) = .ok (v.2.set 0 ((i + 1 : Nat) : Int)) := by
    have := assign_natCast v.2 0 (((i + 1 : Nat) : Int)) hpos
    rw [ei]; simpa using this
  -- the inner loop fills `v1` with row `i + 1`
  obtain ⟨w1, hw1, hlen1, hc1⟩ := forRange_total (rollCell s t v.1 i)
    (fun j w => w.length = t.length + 1 ∧ ∀ l, l ≤ j → w.getD l 0 = levCell s t (i + 1) l)
    t.length 0 (v.2.set 0 ((i + 1 : Nat) : Int))
    ⟨by simp [h1], fun l hl => by
      have hl0 : l = 0 := by omega
      subst hl0
      rw [getD_set_int v.2 0 0 _ hpos, if_pos rfl, levCell_zero_right s t (i + 1) (by omega)]⟩
    (fun j w _ hj hP => rollCell_spec s t v.1 w i j hi (by omega) h0 hP.1 hP.2)
  simp only [Nat.zero_add] at hc1
  -- the copy loop moves it to `v0`
  obtain ⟨w0, hw0, hlen0, hc0⟩ := forRange_total
    (fun j (v0 : List Int) => do let c ← index w1 j; assign v0 j c)
    (fun j w => w.length = t.length + 1 ∧ ∀ l, l < j → w.getD l 0 = w1.getD l 0)
    v.1.length 0 v.1
    ⟨h0.1, fun l hl => absurd hl (Nat.not_lt_zero l)⟩
    (by
      intro j w _ hj hP
      rw [h0.1, Nat.zero_add] at hj
      have hjw : j < w.length := by rw [hP.1]; exact hj
      refine ⟨w.set j (w1.getD j 0), ?_, by simp [hP.1], ?_⟩
      · show (index w1 (j : Int) >>= fun c => assign w (j : Int) c) = _
        rw [index_natCast w1 j 0 (by rw [hlen1]; exact hj), ok_bind,
          assign_natCast w j _ hjw]
      · intro l hl
        rw [getD_set_int w j l _ hjw]
        by_cases hlj : l = j
        · rw [if_pos hlj, hlj]
        · rw [if_neg hlj]; exact hP.2 l (by omega))
  rw [h0.1, Nat.zero_add] at hc0
  refine ⟨(w0, w1), ?_, ⟨hlen0, fun l hl => ?_⟩, ⟨hlen1, fun l hl => hc1 l (by omega)⟩⟩
  · unfold rollRow
    simp only [ha, ok_bind, hw1, hw0]
    rfl
  · rw [hc0 l hl]; exact hc1 l (by omega)

/-- The rolling-buffer routine returns the last cell of the table of the recursion. -/
theorem EditDistance2_spec (s t : List UInt8) (hnt : NonTrivial s t) :
    EditDistance2 s t = .ok (levCell s t s.length t.length, none) := by
  obtain ⟨v0, hinit, hrow0⟩ := rollInit_spec s t
  obtain ⟨w, hw, hP⟩ := forRange_total (rollRow s t)
    (fun i v => RowIs (levCell s t) (t.length + 1) i v.1 ∧ v.2.length = t.length + 1 ∧
      (0 < i → RowIs (levCell s t) (t.length + 1) i v.2))
    s.length 0 (v0, List.replicate (t.length + 1) 0)
    ⟨hrow0, by simp, fun h => absurd h (Nat.lt_irrefl 0)⟩
    (by
      intro i v _ hi hP
      obtain ⟨w, hw, hw0, hw1⟩ := rollRow_spec s t i v (by omega) hP.1 hP.2.1
      exact ⟨w, hw, hw0, hw1.1, fun _ => hw1⟩)
  rw [Nat.zero_add] at hP
  have hs : 0 < s.length := List.length_pos.2 hnt.2.1
  have hrow := hP.2.2 hs
  unfold EditDistance2
  rw [checkTrivial_eq_false hnt]
  simp only [hinit, ok_bind, hw, Bool.false_eq_true, if_false]
  rw [index_natCast w.2 t.length 0 (by rw [hrow.1]; omega), ok_bind,
    hrow.2 t.length (by omega)]
  rfl

/-- The full-matrix routine returns the last cell of the table of the recursion. -/
theorem EditDistance1_spec (s t : List UInt8) (hnt : NonTrivial s t) :
    EditDistance1 s t = .ok (levCell s t s.length t.length, none) := by
  obtain ⟨M, hM, hd, hc⟩ := EditDistanceMatrix_lev s t hnt
  unfold EditDistance1
  rw [hM]
  show (index2 M (s.length : Int) (t.length : Int) >>= fun v => pure (v, none)) = _
  rw [index2_natCast M _ _ s.length t.length hd (by omega) (by omega), ok_bind,
    hc s.length t.length (le_refl _) (le_refl _)]
  rfl

/-! ## The Smith–Waterman tableau and arbitrary recurrences -/

theorem swCell_nonneg (i j : Nat) : 0 ≤ swCell i j := by
  unfold swCell
  split
  · exact Int.natCast_nonneg _
  · split
    · exact Int.natCast_nonneg _
    · exact le_refl _

theorem substCost_nonneg (s t : List UInt8) (i j : Nat) : 0 ≤ substCost s t i j := by
  unfold substCost
  split <;> decide

/-- The recurrence `SmithWatermanCost` returns `0` at every interior cell. -/
theorem SmithWatermanCost_spec (s t : List UInt8) (m : matrix) (i j : Nat)
    (hi1 : 1 ≤ i) (hi : i < s.length + 1) (hj1 : 1 ≤ j) (hj : j < t.length + 1)
    (hm : Filled swCell (s.length + 1) (t.length + 1) i j m) :
    SmithWatermanCost m i j (substCost s t i j) = .ok (swCell i j) := by
  have ei : (i : Int) - 1 = ((i - 1 : Nat) : Int) := by omega
  have ej : (j : Int) - 1 = ((j - 1 : Nat) : Int) := by omega
  unfold SmithWatermanCost
  rw [ei, ej, index2_natCast m _ _ (i - 1) j hm.1 (by omega) hj,
    index2_natCast m _ _ i (j - 1) hm.1 hi (by omega),
    index2_natCast m _ _ (i - 1) (j - 1) hm.1 (by omega) (by omega)]
  simp only [ok_bind, MinInt_four]
  rw [hm.2 (i - 1) j (by omega) hj, hm.2 i (j - 1) hi (by omega),
    hm.2 (i - 1) (j - 1) (by omega) (by omega),
    if_pos (by omega), if_pos (by omega), if_pos (by omega)]
  have h1 := swCell_nonneg (i - 1) j
  have h2 := swCell_nonneg i (j - 1)
  have h3 := swCell_nonneg (i - 1) (j - 1)
  have h4 := substCost_nonneg s t i j
  have e : swCell i j = 0 := by
    unfold swCell
    rw [if_neg (by omega), if_neg (by omega)]
  rw [e]
  congr 1
  apply min_eq_left
  refine le_min (by omega) (le_min (by omega) (by omega))

/-- The Smith–Waterman tableau of this builder. -/
theorem EditDistanceMatrix_sw (s t : List UInt8) (hnt : NonTrivial s t) :
    ∃ M, EditDistanceMatrix s t SmithWatermanCost = .ok (some M, none) ∧
      Dims (s.length + 1) (t.length + 1) M ∧
      ∀ i j, i ≤ s.length → j ≤ t.length → cellAt M i j = swCell i j :=
  EditDistanceMatrix_spec s t SmithWatermanCost swCell hnt
    (fun i _ => by unfold swCell; rw [if_pos rfl])
    (fun j _ => by
      unfold swCell
      by_cases h : j = 0
      · subst h; rfl
      · rw [if_neg h, if_pos rfl])
    (fun m i j hi1 hi hj1 hj hm => SmithWatermanCost_spec s t m i j hi1 hi hj1 hj hm)

/-- A step of the fill loop that returns has written one interior cell. -/
theorem matrixCell_ok_inv (s t : List UInt8) (costFn : costFunc) (i j : Nat) (m m' : matrix)
    (h : matrixCell s t costFn i j m = .ok m') :
    ∃ v, i < m.length ∧ j < (m.getD i []).length ∧ m' = setCell m i j v := by
  unfold matrixCell at h
  obtain ⟨a, _, h⟩ := bind_ok_inv h
  obtain ⟨b, _, h⟩ := bind_ok_inv h
  obtain ⟨v, _, h⟩ := bind_ok_inv h
  exact ⟨v, assign2_ok_inv m m' i j v h⟩

theorem matrixCell_borders (s t : List UInt8) (costFn : costFunc) (y x i j : Nat)
    (m m' : matrix) (hi1 : 1 ≤ i) (hj1 : 1 ≤ j)
    (hm : Dims y x m ∧ Borders y x m) (h : matrixCell s t costFn i j m = .ok m') :
    Dims y x m' ∧ Borders y x m' := by
  obtain ⟨v, hi, hj, rfl⟩ := matrixCell_ok_inv s t costFn i j m m' h
  have hiy : i < y := by rw [← hm.1.1]; exact hi
  have hjx : j < x := by rw [← hm.1.2 i hiy]; exact hj
  refine ⟨hm.1.setCell i j v, fun k l hk hl => ?_⟩
  rw [cellAt_setCell hm.1 i j v hiy hjx k l]
  constructor
  · intro hl0
    rw [if_neg (by omega)]
    exact (hm.2 k l hk hl).1 hl0
  · intro hk0
    rw [if_neg (by omega)]
    exact (hm.2 k l hk hl).2 hk0

/-- Whatever the recurrence, a tableau the builder returns has the dimensions
`(|s|+1) × (|t|+1)` and the borders `i` and `j`. -/
theorem EditDistanceMatrix_borders (s t : List UInt8) (costFn : costFunc) (M : matrix)
    (h : EditDistanceMatrix s t costFn = .ok (some M, none)) :
    Dims (s.length + 1) (t.length + 1) M ∧ Borders (s.length + 1) (t.length + 1) M := by
  unfold EditDistanceMatrix at h
  cases hc : checkTrivial s t with
  | true =>
    rw [hc] at h
    simp at h
  | false =>
    rw [hc] at h
    simp only [Bool.false_eq_true, if_false] at h
    obtain ⟨m0, h0, h⟩ := bind_ok_inv h
    obtain ⟨m1, h1, h⟩ := bind_ok_inv h
    have e : m1 = M := by
      have h' : (Except.ok (some m1, none) : Except Fault (Option matrix × Option GoError)) =
          .ok (some M, none) := h
      injection h' with h'
      injection h' with h' _
      injection h'
    subst e
    obtain ⟨m0', h0', hd0, hc0⟩ := initMatrix_spec (s.length + 1) (t.length + 1)
      (Nat.succ_pos _) (Nat.succ_pos _)
    rw [h0'] at h0
    have e0 : m0' = m0 := by injection h0
    subst e0
    have hb0 : Borders (s.length + 1) (t.length + 1) m0' := by
      intro k l hk hl
      rw [hc0 k l hk hl]
      constructor
      · intro hl0; rw [if_pos hl0]
      · intro hk0
        by_cases hl0 : l = 0
        · rw [if_pos hl0, hk0, hl0]
        · rw [if_neg hl0, if_pos hk0]
    have := forRange_partial (matrixRow s t costFn (t.length + 1))
      (fun _ m => Dims (s.length + 1) (t.length + 1) m ∧ Borders (s.length + 1) (t.length + 1) m)
      (s.length + 1 - 1) 1 m0' m1 ⟨hd0, hb0⟩
      (fun i m m' hi1 _ hP hrow =>
        forRange_partial (matrixCell s t costFn i)
          (fun _ m => Dims (s.length + 1) (t.length + 1) m ∧
            Borders (s.length + 1) (t.length + 1) m)
          (t.length + 1 - 1) 1 m m' hP
          (fun j m m' hj1 _ hP hcell =>
            matrixCell_borders s t costFn _ _ i j m m' hi1 hj1 hP hcell) hrow) h1
    exact this

/-! ## The contract of the edit-distance engine -/

/-- C1: for distinct non-empty byte strings `s` and `t`, `EditDistance2 s t`
returns the same integer as the bottom-right cell `M[|s|][|t|]` of
`M = EditDistanceMatrix s t LevenschteinCost`, which is also the value that
`EditDistance1 s t` returns; all three calls return with a nil error. -/
theorem rolling_agrees_with_matrix (s t : List UInt8)
    (hst : s ≠ t) (hs : s ≠ []) (ht : t ≠ []) :
    ∃ (d : Int) (M : matrix),
      EditDistance2 s t = .ok (d, none) ∧
      EditDistanceMatrix s t LevenschteinCost = .ok (some M, none) ∧
      index2 M s.length t.length = .ok d ∧
      EditDistance1 s t = .ok (d, none) := by
  have hnt : NonTrivial s t := ⟨hst, hs, ht⟩
  obtain ⟨M, hM, hd, hc⟩ := EditDistanceMatrix_lev s t hnt
  refine ⟨levCell s t s.length t.length, M, EditDistance2_spec s t hnt, hM, ?_,
    EditDistance1_spec s t hnt⟩
  rw [index2_natCast M _ _ s.length t.length hd (by omega) (by omega),
    hc s.length t.length (le_refl _) (le_refl _)]

theorem rolling_agrees_with_matrix_witness :
    (strKitten ≠ strSitting ∧ strKitten ≠ [] ∧ strSitting ≠ []) ∧
    ∃ (d : Int) (M : matrix),
      EditDistance2 strKitten strSitting = .ok (d, none) ∧
      EditDistanceMatrix strKitten strSitting LevenschteinCost = .ok (some M, none) ∧
      index2 M strKitten.length strSitting.length = .ok d ∧
      EditDistance1 strKitten strSitting = .ok (d, none) :=
  ⟨⟨by decide, by decide, by decide⟩,
    rolling_agrees_with_matrix strKitten strSitting (by decide) (by decide) (by decide)⟩

/-- C2: for distinct non-empty byte strings `s` and `t`, the builder returns a
tableau `M` under `LevenschteinCost`, and every cell `M[i][j]` with `i ≤ |s|`,
`j ≤ |t|` is the minimum number of single-byte insertions, deletions and
substitutions that transform the first `i` bytes of `s` into the first `j`
bytes of `t`; in particular the value `EditDistance1 s t` returns is that
minimum for `s` and `t` themselves. -/
theorem levenshtein_tableau_is_edit_distance (s t : List UInt8)
    (hst : s ≠ t) (hs : s ≠ []) (ht : t ≠ []) :
    ∃ M : matrix,
      EditDistanceMatrix s t LevenschteinCost = .ok (some M, none) ∧
      (∀ i j : Nat, i ≤ s.length → j ≤ t.length →
        ∃ d : Nat, index2 M i j = .ok (d : Int) ∧ IsEditDistance (s.take i) (t.take j) d) ∧
      ∃ d : Nat, EditDistance1 s t = .ok ((d : Int), none) ∧ IsEditDistance s t d := by
  have hnt : NonTrivial s t := ⟨hst, hs, ht⟩
  obtain ⟨M, hM, hd, hc⟩ := EditDistanceMatrix_lev s t hnt
  refine ⟨M, hM, ?_, ?_⟩
  · intro i j hi hj
    obtain ⟨d, hd', hdist⟩ := isEditDistance_levCell s t i j
    refine ⟨d, ?_, hdist⟩
    rw [index2_natCast M _ _ i j hd (by omega) (by omega), hc i j hi hj, hd']
  · obtain ⟨d, hd', hdist⟩ := isEditDistance_levCell s t s.length t.length
    rw [List.take_length, List.take_length] at hdist
    exact ⟨d, by rw [EditDistance1_spec s t hnt, hd'], hdist⟩

theorem levenshtein_tableau_is_edit_distance_witness :
    (strAB ≠ strCD ∧ strAB ≠ [] ∧ strCD ≠ []) ∧
    ∃ M : matrix,
      EditDistanceMatrix strAB strCD LevenschteinCost = .ok (some M, none) ∧
      (∀ i j : Nat, i ≤ strAB.length → j ≤ strCD.length →
        ∃ d : Nat, index2 M i j = .ok (d : Int) ∧
          IsEditDistance (strAB.take i) (strCD.take j) d) ∧
      ∃ d : Nat, EditDistance1 strAB strCD = .ok ((d : Int), none) ∧
        IsEditDistance strAB strCD d :=
  ⟨⟨by decide, by decide, by decide⟩,
    levenshtein_tableau_is_edit_distance strAB strCD (by decide) (by decide) (by decide)⟩

/-- C3: for distinct non-empty byte strings `s` and `t`, `EditDistance2 s t`
returns, with a nil error, the edit distance between `s` and `t`: the minimum
length of a sequence of single-byte insertions, deletions and substitutions
that transforms `s` into `t` (`IsEditDistance`, defined on edit scripts
independently of the dynamic programme). -/
theorem EditDistance2_is_edit_distance (s t : List UInt8)
    (hst : s ≠ t) (hs : s ≠ []) (ht : t ≠ []) :
    ∃ d : Nat, EditDistance2 s t = .ok ((d : Int), none) ∧ IsEditDistance s t d := by
  have hnt : NonTrivial s t := ⟨hst, hs, ht⟩
  obtain ⟨d, hd', hdist⟩ := isEditDistance_levCell s t s.length t.length
  rw [List.take_length, List.take_length] at hdist
  exact ⟨d, by rw [EditDistance2_spec s t hnt, hd'], hdist⟩

theorem EditDistance2_is_edit_distance_witness :
    (strAB ≠ strABC ∧ strAB ≠ [] ∧ strABC ≠ []) ∧
    ∃ d : Nat, EditDistance2 strAB strABC = .ok ((d : Int), none) ∧
      IsEditDistance strAB strABC d :=
  ⟨⟨by decide, by decide, by decide⟩,
    EditDistance2_is_edit_distance strAB strABC (by decide) (by decide) (by decide)⟩

/-- C4: `checkTrivial s t` returns true if and only if `s` equals `t`
byte-for-byte, or `s` is empty, or `t` is empty. -/
theorem checkTrivial_spec (s t : List UInt8) :
    checkTrivial s t = true ↔ (s = t ∨ s = [] ∨ t = []) :=
  checkTrivial_iff s t

/-- C5: when `s` equals `t`, or `s` is empty, or `t` is empty, then for every
recurrence `EditDistanceMatrix` returns a nil matrix with `ErrTrivialMatrix`,
and `EditDistance1` and `EditDistance2` return `0` with `ErrTrivialMatrix`. -/
theorem trivial_inputs_fail (s t : List UInt8) (h : s = t ∨ s = [] ∨ t = []) :
    (∀ costFn : costFunc,
      EditDistanceMatrix s t costFn = .ok (none, some GoError.ErrTrivialMatrix)) ∧
    EditDistance1 s t = .ok (0, some GoError.ErrTrivialMatrix) ∧
    EditDistance2 s t = .ok (0, some GoError.ErrTrivialMatrix) := by
  have hc : checkTrivial s t = true := (checkTrivial_iff s t).2 h
  have hm : ∀ costFn : costFunc,
      EditDistanceMatrix s t costFn = .ok (none, some GoError.ErrTrivialMatrix) := by
    intro costFn
    unfold EditDistanceMatrix
    rw [hc]; rfl
  refine ⟨hm, ?_, ?_⟩
  · unfold EditDistance1
    rw [hm LevenschteinCost]; rfl
  · unfold EditDistance2
    rw [hc]; rfl

theorem trivial_inputs_fail_witness :
    (strABC = strABC ∨ strABC = [] ∨ strABC = []) ∧
    (∀ costFn : costFunc,
      EditDistanceMatrix strABC strABC costFn = .ok (none, some GoError.ErrTrivialMatrix)) ∧
    EditDistance1 strABC strABC = .ok (0, some GoError.ErrTrivialMatrix) ∧
    EditDistance2 strABC strABC = .ok (0, some GoError.ErrTrivialMatrix) :=
  ⟨Or.inl rfl, trivial_inputs_fail strABC strABC (Or.inl rfl)⟩

/-- C6: trivial-matrix is the only failure.  For distinct non-empty byte
strings `s` and `t`, `EditDistanceMatrix` under `LevenschteinCost` and under
`SmithWatermanCost`, `EditDistance1` and `EditDistance2` all return a result
with a nil error.  Every read and write of `s`, `t`, the tableau and the rows
`v0`, `v1` is bounds-checked in the model, and `MinInt` fails on an empty
list, so returning a result means that no index was out of range and that the
minimum helper never received an empty sequence. -/
theorem nontrivial_inputs_succeed (s t : List UInt8)
    (hst : s ≠ t) (hs : s ≠ []) (ht : t ≠ []) :
    (∃ M : matrix, EditDistanceMatrix s t LevenschteinCost = .ok (some M, none)) ∧
    (∃ M : matrix, EditDistanceMatrix s t SmithWatermanCost = .ok (some M, none)) ∧
    (∃ d : Int, EditDistance1 s t = .ok (d, none)) ∧
    (∃ d : Int, EditDistance2 s t = .ok (d, none)) := by
  have hnt : NonTrivial s t := ⟨hst, hs, ht⟩
  obtain ⟨M, hM, _⟩ := EditDistanceMatrix_lev s t hnt
  obtain ⟨M', hM', _⟩ := EditDistanceMatrix_sw s t hnt
  exact ⟨⟨M, hM⟩, ⟨M', hM'⟩, ⟨_, EditDistance1_spec s t hnt⟩, ⟨_, EditDistance2_spec s t hnt⟩⟩

theorem nontrivial_inputs_succeed_witness :
    (strABC ≠ strCD ∧ strABC ≠ [] ∧ strCD ≠ []) ∧
    (∃ M : matrix, EditDistanceMatrix strABC strCD LevenschteinCost = .ok (some M, none)) ∧
    (∃ M : matrix, EditDistanceMatrix strABC strCD SmithWatermanCost = .ok (some M, none)) ∧
    (∃ d : Int, EditDistance1 strABC strCD = .ok (d, none)) ∧
    (∃ d : Int, EditDistance2 strABC strCD = .ok (d, none)) :=
  ⟨⟨by decide, by decide, by decide⟩,
    nontrivial_inputs_succeed strABC strCD (by decide) (by decide) (by decide)⟩

/-- C7: for distinct non-empty byte strings `s` and `t`, `EditDistance2 s t`
and `EditDistance2 t s` both return with a nil error, and return the same
integer. -/
theorem EditDistance2_symmetric (s t : List UInt8)
    (hst : s ≠ t) (hs : s ≠ []) (ht : t ≠ []) :
    ∃ d : Int, EditDistance2 s t = .ok (d, none) ∧ EditDistance2 t s = .ok (d, none) := by
  have hnt : NonTrivial s t := ⟨hst, hs, ht⟩
  have hnt' : NonTrivial t s := ⟨fun h => hst h.symm, ht, hs⟩
  refine ⟨levCell s t s.length t.length, EditDistance2_spec s t hnt, ?_⟩
  rw [EditDistance2_spec t s hnt']
  unfold levCell
  rw [levDist_comm]

theorem EditDistance2_symmetric_witness :
    (strKitten ≠ strABC ∧ strKitten ≠ [] ∧ strABC ≠ []) ∧
    ∃ d : Int, EditDistance2 strKitten strABC = .ok (d, none) ∧
      EditDistance2 strABC strKitten = .ok (d, none) :=
  ⟨⟨by decide, by decide, by decide⟩,
    EditDistance2_symmetric strKitten strABC (by decide) (by decide) (by decide)⟩

/-- C8: for distinct non-empty byte strings `s` and `t`, the integer that
`EditDistance2 s t` returns is at most `max |s| |t|`. -/
theorem EditDistance2_le_max (s t : List UInt8)
    (hst : s ≠ t) (hs : s ≠ []) (ht : t ≠ []) :
    ∃ d : Int, EditDistance2 s t = .ok (d, none) ∧
      d ≤ max (s.length : Int) (t.length : Int) := by
  have hnt : NonTrivial s t := ⟨hst, hs, ht⟩
  refine ⟨levCell s t s.length t.length, EditDistance2_spec s t hnt, ?_⟩
  unfold levCell
  have h := levDist_le_max (s.take s.length).reverse (t.take t.length).reverse
  rw [List.take_length, List.take_length, List.length_reverse, List.length_reverse] at h
  rw [List.take_length, List.take_length]
  exact_mod_cast h

theorem EditDistance2_le_max_witness :
    (strSitting ≠ strCD ∧ strSitting ≠ [] ∧ strCD ≠ []) ∧
    ∃ d : Int, EditDistance2 strSitting strCD = .ok (d, none) ∧
      d ≤ max (strSitting.length : Int) (strCD.length : Int) :=
  ⟨⟨by decide, by decide, by decide⟩,
    EditDistance2_le_max strSitting strCD (by decide) (by decide) (by decide)⟩

/-- C9: for distinct non-empty byte strings `s` and `t` and every recurrence
(a pure function of its arguments), a tableau `M` that `EditDistanceMatrix`
returns has `M[0][0] = 0`, `M[i][0] = i` for every `i ≤ |s|` and `M[0][j] = j`
for every `j ≤ |t|`; and under both `LevenschteinCost` and `SmithWatermanCost`
the builder does return a tableau.  The borders do not depend on the
recurrence. -/
theorem borders_for_every_recurrence (s t : List UInt8)
    (hst : s ≠ t) (hs : s ≠ []) (ht : t ≠ []) :
    (∀ (costFn : costFunc) (M : matrix),
      EditDistanceMatrix s t costFn = .ok (some M, none) →
        index2 M 0 0 = .ok 0 ∧
        (∀ i : Nat, i ≤ s.length → index2 M i 0 = .ok (i : Int)) ∧
        (∀ j : Nat, j ≤ t.length → index2 M 0 j = .ok (j : Int))) ∧
    (∃ M : matrix, EditDistanceMatrix s t LevenschteinCost = .ok (some M, none)) ∧
    (∃ M : matrix, EditDistanceMatrix s t SmithWatermanCost = .ok (some M, none)) := by
  have hnt : NonTrivial s t := ⟨hst, hs, ht⟩
  obtain ⟨M1, hM1, _⟩ := EditDistanceMatrix_lev s t hnt
  obtain ⟨M2, hM2, _⟩ := EditDistanceMatrix_sw s t hnt
  refine ⟨?_, ⟨M1, hM1⟩, ⟨M2, hM2⟩⟩
  intro costFn M hM
  obtain ⟨hd, hb⟩ := EditDistanceMatrix_borders s t costFn M hM
  have hcol : ∀ i : Nat, i ≤ s.length → index2 M i 0 = .ok (i : Int) := by
    intro i hi
    have := index2_natCast M _ _ i 0 hd (by omega) (Nat.succ_pos _)
    rw [(hb i 0 (by omega) (Nat.succ_pos _)).1 rfl] at this
    simpa using this
  have hrow : ∀ j : Nat, j ≤ t.length → index2 M 0 j = .ok (j : Int) := by
    intro j hj
    have := index2_natCast M _ _ 0 j hd (Nat.succ_pos _) (by omega)
    rw [(hb 0 j (Nat.succ_pos _) (by omega)).2 rfl] at this
    simpa using this
  refine ⟨?_, hcol, hrow⟩
  have := hcol 0 (Nat.zero_le _)
  simpa using this

theorem borders_for_every_recurrence_witness :
    (strAB ≠ strSitting ∧ strAB ≠ [] ∧ strSitting ≠ []) ∧
    (∀ (costFn : costFunc) (M : matrix),
      EditDistanceMatrix strAB strSitting costFn = .ok (some M, none) →
        index2 M 0 0 = .ok 0 ∧
        (∀ i : Nat, i ≤ strAB.length → index2 M i 0 = .ok (i : Int)) ∧
        (∀ j : Nat, j ≤ strSitting.length → index2 M 0 j = .ok (j : Int))) ∧
    (∃ M : matrix, EditDistanceMatrix strAB strSitting LevenschteinCost = .ok (some M, none)) ∧
    (∃ M : matrix,
      EditDistanceMatrix strAB strSitting SmithWatermanCost = .ok (some M, none)) :=
  ⟨⟨by decide, by decide, by decide⟩,
    borders_for_every_recurrence strAB strSitting (by decide) (by decide) (by decide)⟩

/-- C10, as stated, fails: the Smith–Waterman tableau of `"ab"` and `"cd"` is
`[[0,1,2],[1,0,0],[2,0,0]]`, whose border cell `M[1][0]` is `1`, so its
borders are not all zero. -/
theorem smithWaterman_borders_not_zero :
    EditDistanceMatrix strAB strCD SmithWatermanCost =
      .ok (some [[0, 1, 2], [1, 0, 0], [2, 0, 0]], none) ∧
    index2 [[0, 1, 2], [1, 0, 0], [2, 0, 0]] 1 0 = .ok 1 ∧
    ¬ ∃ M : matrix, EditDistanceMatrix strAB strCD SmithWatermanCost = .ok (some M, none) ∧
      (∀ i : Nat, i ≤ strAB.length → index2 M i 0 = .ok 0) ∧
      (∀ j : Nat, j ≤ strCD.length → index2 M 0 j = .ok 0) := by
  have h : EditDistanceMatrix strAB strCD SmithWatermanCost =
      .ok (some [[0, 1, 2], [1, 0, 0], [2, 0, 0]], none) := by decide
  refine ⟨h, by decide, ?_⟩
  rintro ⟨M, hM, hcol, _⟩
  rw [h] at hM
  have e : ([[0, 1, 2], [1, 0, 0], [2, 0, 0]] : matrix) = M := by
    injection hM with hM
    injection hM with hM _
    injection hM
  subst e
  have := hcol 1 (by decide)
  revert this
  decide

/-- C10, amended: for distinct non-empty byte strings `s` and `t`, the
Smith–Waterman tableau `M = EditDistanceMatrix s t SmithWatermanCost` has the
same borders as every tableau of this builder: `M[i][0] = i` for every
`i ≤ |s|` and `M[0][j] = j` for every `j ≤ |t|`; only `M[0][0]` is zero. -/
theorem smithWaterman_borders (s t : List UInt8)
    (hst : s ≠ t) (hs : s ≠ []) (ht : t ≠ []) :
    ∃ M : matrix, EditDistanceMatrix s t SmithWatermanCost = .ok (some M, none) ∧
      (∀ i : Nat, i ≤ s.length → index2 M i 0 = .ok (i : Int)) ∧
      (∀ j : Nat, j ≤ t.length → index2 M 0 j = .ok (j : Int)) := by
  have hnt : NonTrivial s t := ⟨hst, hs, ht⟩
  obtain ⟨M, hM, hd, hc⟩ := EditDistanceMatrix_sw s t hnt
  refine ⟨M, hM, ?_, ?_⟩
  · intro i hi
    have := index2_natCast M _ _ i 0 hd (by omega) (Nat.succ_pos _)
    rw [hc i 0 hi (Nat.zero_le _)] at this
    simpa [swCell] using this
  · intro j hj
    have := index2_natCast M _ _ 0 j hd (Nat.succ_pos _) (by omega)
    rw [hc 0 j (Nat.zero_le _) hj] at this
    have e : swCell 0 j = (j : Int) := by
      unfold swCell
      by_cases h : j = 0
      · subst h; rfl
      · rw [if_neg h, if_pos rfl]
    rw [e] at this
    simpa using this

theorem smithWaterman_borders_witness :
    (strCD ≠ strKitten ∧ strCD ≠ [] ∧ strKitten ≠ []) ∧
    ∃ M : matrix, EditDistanceMatrix strCD strKitten SmithWatermanCost = .ok (some M, none) ∧
      (∀ i : Nat, i ≤ strCD.length → index2 M i 0 = .ok (i : Int)) ∧
      (∀ j : Nat, j ≤ strKitten.length → index2 M 0 j = .ok (j : Int)) :=
  ⟨⟨by decide, by decide, by decide⟩,
    smithWaterman_borders strCD strKitten (by decide) (by decide) (by decide)⟩

/-! ## Reading the returned tableaux -/

theorem EditDistanceMatrix_lev_index (s t : List UInt8) (hnt : NonTrivial s t) :
    ∃ M : matrix, EditDistanceMatrix s t LevenschteinCost = .ok (some M, none) ∧
      Dims (s.length + 1) (t.length + 1) M ∧
      ∀ i j : Nat, i ≤ s.length → j ≤ t.length →
        index2 M (i : Int) (j : Int) = .ok (levCell s t i j) := by
  obtain ⟨M, hM, hd, hc⟩ := EditDistanceMatrix_lev s t hnt
  refine ⟨M, hM, hd, fun i j hi hj => ?_⟩
  rw [index2_natCast M _ _ i j hd (by omega) (by omega), hc i j hi hj]

theorem EditDistanceMatrix_sw_index (s t : List UInt8) (hnt : NonTrivial s t) :
    ∃ M : matrix, EditDistanceMatrix s t SmithWatermanCost = .ok (some M, none) ∧
      Dims (s.length + 1) (t.length + 1) M ∧
      ∀ i j : Nat, i ≤ s.length → j ≤ t.length →
        index2 M (i : Int) (j : Int) = .ok (swCell i j) := by
  obtain ⟨M, hM, hd, hc⟩ := EditDistanceMatrix_sw s t hnt
  refine ⟨M, hM, hd, fun i j hi hj => ?_⟩
  rw [index2_natCast M _ _ i j hd (by omega) (by omega), hc i j hi hj]

/-! ## Neighbouring cells of the Levenshtein table -/

theorem levDist_le_cons_right {α : Type} [DecidableEq α] (b : α) (s t : List α) :
    levDist s t ≤ levDist s (b :: t) + 1 := by
  rw [levDist_comm s (b :: t), levDist_comm s t]
  exact levDist_le_cons_left b t s

theorem levCell_succ_left_le (s t : List UInt8) (i j : Nat) (hi : i < s.length) :
    levCell s t (i + 1) j ≤ levCell s t i j + 1 := by
  unfold levCell
  rw [take_succ_reverse s i 0 hi]
  exact_mod_cast levDist_cons_left_le (s.getD i 0) (s.take i).reverse (t.take j).reverse

theorem levCell_le_succ_left (s t : List UInt8) (i j : Nat) (hi : i < s.length) :
    levCell s t i j ≤ levCell s t (i + 1) j + 1 := by
  unfold levCell
  rw [take_succ_reverse s i 0 hi]
  exact_mod_cast levDist_le_cons_left (s.getD i 0) (s.take i).reverse (t.take j).reverse

theorem levCell_succ_right_le (s t : List UInt8) (i j : Nat) (hj : j < t.length) :
    levCell s t i (j + 1) ≤ levCell s t i j + 1 := by
  unfold levCell
  rw [take_succ_reverse t j 0 hj]
  exact_mod_cast levDist_cons_right_le (t.getD j 0) (s.take i).reverse (t.take j).reverse

theorem levCell_le_succ_right (s t : List UInt8) (i j : Nat) (hj : j < t.length) :
    levCell s t i j ≤ levCell s t i (j + 1) + 1 := by
  unfold levCell
  rw [take_succ_reverse t j 0 hj]
  exact_mod_cast levDist_le_cons_right (t.getD j 0) (s.take i).reverse (t.take j).reverse

theorem substCost_le_one (s t : List UInt8) (i j : Nat) : substCost s t i j ≤ 1 := by
  unfold substCost
  split <;> decide

theorem levCell_diag_succ_le (s t : List UInt8) (i j : Nat)
    (hi : i < s.length) (hj : j < t.length) :
    levCell s t (i + 1) (j + 1) ≤ levCell s t i j + 1 := by
  rw [levCell_succ s t i j hi hj]
  have h := substCost_le_one s t (i + 1) (j + 1)
  have h3 : min (levCell s t i (j + 1) + 1)
      (min (levCell s t (i + 1) j + 1) (levCell s t i j + substCost s t (i + 1) (j + 1)))
      ≤ levCell s t i j + substCost s t (i + 1) (j + 1) :=
    le_trans (min_le_right _ _) (min_le_right _ _)
  omega

theorem levCell_diag_le (s t : List UInt8) (i j : Nat)
    (hi : i < s.length) (hj : j < t.length) :
    levCell s t i j ≤ levCell s t (i + 1) (j + 1) := by
  rw [levCell_succ s t i j hi hj]
  have h1 := levCell_le_succ_right s t i j hj
  have h2 := levCell_le_succ_left s t i j hi
  have h3 := substCost_nonneg s t (i + 1) (j + 1)
  refine le_min (by omega) (le_min (by omega) (by omega))

theorem dims_forall_mem {y x : Nat} {m : matrix} (hm : Dims y x m) :
    m.length = y ∧ ∀ row, row ∈ m → row.length = x := by
  refine ⟨hm.1, fun row hrow => ?_⟩
  obtain ⟨k, hk, rfl⟩ := List.mem_iff_getElem.1 hrow
  have := hm.2 k (by rw [← hm.1]; exact hk)
  simpa [List.getD_eq_getElem?_getD, List.getElem?_eq_getElem hk] using this

theorem natCast_succ_sub_one (i : Nat) : (((i + 1 : Nat) : Int)) - 1 = (i : Int) := by
  omega

theorem substCost_succ (s t : List UInt8) (i j : Nat) :
    substCost s t (i + 1) (j + 1) = if s.getD i 0 = t.getD j 0 then (0 : Int) else 1 := by
  unfold substCost
  simp only [Nat.add_sub_cancel]
  by_cases h : s.getD i 0 = t.getD j 0
  · simp [h]
  · simp [h]

theorem swCell_succ_succ (i j : Nat) : swCell (i + 1) (j + 1) = 0 := by
  unfold swCell
  rw [if_neg (by omega), if_neg (by omega)]

theorem forRange_add {σ : Type} (body : Nat → σ → Except Fault σ) :
    ∀ (a b lo : Nat) (st : σ),
      forRange body lo (a + b) st = (forRange body lo a st >>= forRange body (lo + a) b) := by
  intro a
  induction a with
  | zero =>
    intro b lo st
    rw [Nat.zero_add]
    rfl
  | succ a ih =>
    intro b lo st
    have e : a + 1 + b = (a + b) + 1 := by omega
    rw [e]
    show (body lo st >>= forRange body (lo + 1) (a + b)) =
      ((body lo st >>= forRange body (lo + 1) a) >>= forRange body (lo + (a + 1)) b)
    cases hb : body lo st with
    | error err => rfl
    | ok st1 =>
      have e2 : lo + (a + 1) = lo + 1 + a := by omega
      rw [e2]
      exact ih b (lo + 1) st1

theorem list_eq_of_getD (u v : List Int) (hlen : u.length = v.length)
    (h : ∀ l, l < u.length → u.getD l 0 = v.getD l 0) : u = v := by
  apply List.ext_getElem hlen
  intro n h1 h2
  have := h n h1
  simpa [List.getD_eq_getElem?_getD, List.getElem?_eq_getElem h1,
    List.getElem?_eq_getElem h2] using this

/-- The rolling rows after `n` outer iterations of `EditDistance2`. -/
theorem rollLoop_spec (s t : List UInt8) (n : Nat) (hn : n ≤ s.length) :
    ∃ w, (rollInit t >>= forRange (rollRow s t) 0 n) = .ok w ∧
      RowIs (levCell s t) (t.length + 1) n w.1 ∧ w.2.length = t.length + 1 ∧
      (0 < n → RowIs (levCell s t) (t.length + 1) n w.2) := by
  obtain ⟨v0, hinit, hrow0⟩ := rollInit_spec s t
  obtain ⟨w, hw, hP⟩ := forRange_total (rollRow s t)
    (fun i v => RowIs (levCell s t) (t.length + 1) i v.1 ∧ v.2.length = t.length + 1 ∧
      (0 < i → RowIs (levCell s t) (t.length + 1) i v.2))
    n 0 (v0, List.replicate (t.length + 1) 0)
    ⟨hrow0, by simp, fun h => absurd h (Nat.lt_irrefl 0)⟩
    (by
      intro i v _ hi hP
      obtain ⟨w, hw, hw0, hw1⟩ := rollRow_spec s t i v (by omega) hP.1 hP.2.1
      exact ⟨w, hw, hw0, hw1.1, fun _ => hw1⟩)
  rw [Nat.zero_add] at hP
  exact ⟨w, by rw [hinit, ok_bind, hw], hP⟩

theorem rowIs_eq_row (F : Nat → Nat → Int) (y x i : Nat) (M : matrix) (v : List Int)
    (hd : Dims y x M) (hi : i < y) (hc : ∀ l, l < x → cellAt M i l = F i l)
    (hv : RowIs F x i v) : index M (i : Int) = .ok v := by
  rw [index_natCast M i [] (by rw [hd.1]; exact hi)]
  congr 1
  apply list_eq_of_getD
  · rw [hd.2 i hi, hv.1]
  · intro l hl
    rw [hd.2 i hi] at hl
    rw [hv.2 l hl, ← hc l hl]
    rfl

theorem editStep_length {α : Type} {s u : List α} (h : EditStep s u) :
    s.length ≤ u.length + 1 ∧ u.length ≤ s.length + 1 := by
  cases h with
  | insertion l r a => simp only [List.length_append, List.length_cons]; omega
  | deletion l r a => simp only [List.length_append, List.length_cons]; omega
  | substitution l r a b hab => simp only [List.length_append, List.length_cons]; omega

theorem editsIn_length {α : Type} {n : Nat} {s t : List α} (h : EditsIn n s t) :
    s.length ≤ t.length + n ∧ t.length ≤ s.length + n := by
  induction h with
  | done s => omega
  | step hs _ ih =>
    have := editStep_length hs
    omega

theorem editsIn_zero {α : Type} {s t : List α} (h : EditsIn 0 s t) : s = t := by
  cases h
  rfl

/-! ## The contract of the edit-distance engine, continued -/

/-- C11: for distinct non-empty byte strings `s` and `t`, neighbouring cells of
the Levenshtein tableau `M = EditDistanceMatrix s t LevenschteinCost` differ by
at most `1`: `|M[i][j] - M[i-1][j-1]| ≤ 1` for `1 ≤ i ≤ |s|`, `1 ≤ j ≤ |t|`;
`|M[i][j] - M[i-1][j]| ≤ 1` for every vertically adjacent pair
(`1 ≤ i ≤ |s|`, `0 ≤ j ≤ |t|`); and `|M[i][j] - M[i][j-1]| ≤ 1` for every
horizontally adjacent pair (`0 ≤ i ≤ |s|`, `1 ≤ j ≤ |t|`). -/
theorem levenshtein_neighbours_differ_by_one (s t : List UInt8)
    (hst : s ≠ t) (hs : s ≠ []) (ht : t ≠ []) :
    ∃ M : matrix, EditDistanceMatrix s t LevenschteinCost = .ok (some M, none) ∧
      (∀ i j : Nat, 1 ≤ i → i ≤ s.length → 1 ≤ j → j ≤ t.length →
        ∃ v d : Int, index2 M i j = .ok v ∧
          index2 M ((i : Int) - 1) ((j : Int) - 1) = .ok d ∧ |v - d| ≤ 1) ∧
      (∀ i j : Nat, 1 ≤ i → i ≤ s.length → j ≤ t.length →
        ∃ v u : Int, index2 M i j = .ok v ∧
          index2 M ((i : Int) - 1) j = .ok u ∧ |v - u| ≤ 1) ∧
      (∀ i j : Nat, i ≤ s.length → 1 ≤ j → j ≤ t.length →
        ∃ v l : Int, index2 M i j = .ok v ∧
          index2 M i ((j : Int) - 1) = .ok l ∧ |v - l| ≤ 1) := by
  have hnt : NonTrivial s t := ⟨hst, hs, ht⟩
  obtain ⟨M, hM, _, hidx⟩ := EditDistanceMatrix_lev_index s t hnt
  refine ⟨M, hM, ?_, ?_, ?_⟩
  · intro i j hi1 hi hj1 hj
    obtain ⟨i, rfl⟩ : ∃ k, i = k + 1 := ⟨i - 1, by omega⟩
    obtain ⟨j, rfl⟩ : ∃ k, j = k + 1 := ⟨j - 1, by omega⟩
    refine ⟨levCell s t (i + 1) (j + 1), levCell s t i j, hidx (i + 1) (j + 1) hi hj, ?_, ?_⟩
    · rw [natCast_succ_sub_one, natCast_succ_sub_one]
      exact hidx i j (by omega) (by omega)
    · have h1 := levCell_diag_succ_le s t i j (by omega) (by omega)
      have h2 := levCell_diag_le s t i j (by omega) (by omega)
      exact abs_le.2 ⟨by omega, by omega⟩
  · intro i j hi1 hi hj
    obtain ⟨i, rfl⟩ : ∃ k, i = k + 1 := ⟨i - 1, by omega⟩
    refine ⟨levCell s t (i + 1) j, levCell s t i j, hidx (i + 1) j hi hj, ?_, ?_⟩
    · rw [natCast_succ_sub_one]
      exact hidx i j (by omega) hj
    · have h1 := levCell_succ_left_le s t i j (by omega)
      have h2 := levCell_le_succ_left s t i j (by omega)
      exact abs_le.2 ⟨by omega, by omega⟩
  · intro i j hi hj1 hj
    obtain ⟨j, rfl⟩ : ∃ k, j = k + 1 := ⟨j - 1, by omega⟩
    refine ⟨levCell s t i (j + 1), levCell s t i j, hidx i (j + 1) hi hj, ?_, ?_⟩
    · rw [natCast_succ_sub_one]
      exact hidx i j hi (by omega)
    · have h1 := levCell_succ_right_le s t i j (by omega)
      have h2 := levCell_le_succ_right s t i j (by omega)
      exact abs_le.2 ⟨by omega, by omega⟩

theorem levenshtein_neighbours_differ_by_one_witness :
    (strSaturday ≠ strSunday ∧ strSaturday ≠ [] ∧ strSunday ≠ []) ∧
    ∃ M : matrix, EditDistanceMatrix strSaturday strSunday LevenschteinCost =
        .ok (some M, none) ∧
      (∀ i j : Nat, 1 ≤ i → i ≤ strSaturday.length → 1 ≤ j → j ≤ strSunday.length →
        ∃ v d : Int, index2 M i j = .ok v ∧
          index2 M ((i : Int) - 1) ((j : Int) - 1) = .ok d ∧ |v - d| ≤ 1) ∧
      (∀ i j : Nat, 1 ≤ i → i ≤ strSaturday.length → j ≤ strSunday.length →
        ∃ v u : Int, index2 M i j = .ok v ∧
          index2 M ((i : Int) - 1) j = .ok u ∧ |v - u| ≤ 1) ∧
      (∀ i j : Nat, i ≤ strSaturday.length → 1 ≤ j → j ≤ strSunday.length →
        ∃ v l : Int, index2 M i j = .ok v ∧
          index2 M i ((j : Int) - 1) = .ok l ∧ |v - l| ≤ 1) :=
  ⟨⟨by decide, by decide, by decide⟩,
    levenshtein_neighbours_differ_by_one strSaturday strSunday
      (by decide) (by decide) (by decide)⟩

/-- C12: for distinct non-empty byte strings `s` and `t` and every `i ≤ |s|`,
`j ≤ |t|`, cell `[i][j]` of `EditDistanceMatrix s t SmithWatermanCost` is `≥ 0`
and `≤` cell `[i][j]` of `EditDistanceMatrix s t LevenschteinCost`. -/
theorem smithWaterman_between_zero_and_levenshtein (s t : List UInt8)
    (hst : s ≠ t) (hs : s ≠ []) (ht : t ≠ []) :
    ∃ Msw Mlev : matrix,
      EditDistanceMatrix s t SmithWatermanCost = .ok (some Msw, none) ∧
      EditDistanceMatrix s t LevenschteinCost = .ok (some Mlev, none) ∧
      ∀ i j : Nat, i ≤ s.length → j ≤ t.length →
        ∃ a b : Int, index2 Msw i j = .ok a ∧ index2 Mlev i j = .ok b ∧ 0 ≤ a ∧ a ≤ b := by
  have hnt : NonTrivial s t := ⟨hst, hs, ht⟩
  obtain ⟨Mlev, hlev, _, hil⟩ := EditDistanceMatrix_lev_index s t hnt
  obtain ⟨Msw, hsw, _, his⟩ := EditDistanceMatrix_sw_index s t hnt
  refine ⟨Msw, Mlev, hsw, hlev, fun i j hi hj => ?_⟩
  refine ⟨_, _, his i j hi hj, hil i j hi hj, swCell_nonneg i j, ?_⟩
  unfold swCell
  by_cases hj0 : j = 0
  · subst hj0
    rw [if_pos rfl, levCell_zero_right s t i hi]
  · rw [if_neg hj0]
    by_cases hi0 : i = 0
    · subst hi0
      rw [if_pos rfl, levCell_zero_left s t j hj]
    · rw [if_neg hi0]
      exact levCell_nonneg s t i j

theorem smithWaterman_between_zero_and_levenshtein_witness :
    (strKitten ≠ strSitting ∧ strKitten ≠ [] ∧ strSitting ≠ []) ∧
    ∃ Msw Mlev : matrix,
      EditDistanceMatrix strKitten strSitting SmithWatermanCost = .ok (some Msw, none) ∧
      EditDistanceMatrix strKitten strSitting LevenschteinCost = .ok (some Mlev, none) ∧
      ∀ i j : Nat, i ≤ strKitten.length → j ≤ strSitting.length →
        ∃ a b : Int, index2 Msw i j = .ok a ∧ index2 Mlev i j = .ok b ∧ 0 ≤ a ∧ a ≤ b :=
  ⟨⟨by decide, by decide, by decide⟩,
    smithWaterman_between_zero_and_levenshtein strKitten strSitting
      (by decide) (by decide) (by decide)⟩

/-- C13: for distinct non-empty byte strings `s` and `t` and every recurrence
(a pure function of its arguments), a tableau that `EditDistanceMatrix` returns
is rectangular with exactly `|s| + 1` rows, each of exactly `|t| + 1` columns;
and under both `LevenschteinCost` and `SmithWatermanCost` the builder does
return a tableau. -/
theorem tableau_is_rectangular (s t : List UInt8)
    (hst : s ≠ t) (hs : s ≠ []) (ht : t ≠ []) :
    (∀ (costFn : costFunc) (M : matrix),
      EditDistanceMatrix s t costFn = .ok (some M, none) →
        M.length = s.length + 1 ∧ ∀ row, row ∈ M → row.length = t.length + 1) ∧
    (∃ M : matrix, EditDistanceMatrix s t LevenschteinCost = .ok (some M, none)) ∧
    (∃ M : matrix, EditDistanceMatrix s t SmithWatermanCost = .ok (some M, none)) := by
  have hnt : NonTrivial s t := ⟨hst, hs, ht⟩
  obtain ⟨M1, hM1, _⟩ := EditDistanceMatrix_lev s t hnt
  obtain ⟨M2, hM2, _⟩ := EditDistanceMatrix_sw s t hnt
  exact ⟨fun costFn M hM => dims_forall_mem (EditDistanceMatrix_borders s t costFn M hM).1,
    ⟨M1, hM1⟩, ⟨M2, hM2⟩⟩

theorem tableau_is_rectangular_witness :
    (strSunday ≠ strAB ∧ strSunday ≠ [] ∧ strAB ≠ []) ∧
    (∀ (costFn : costFunc) (M : matrix),
      EditDistanceMatrix strSunday strAB costFn = .ok (some M, none) →
        M.length = strSunday.length + 1 ∧ ∀ row, row ∈ M → row.length = strAB.length + 1) ∧
    (∃ M : matrix, EditDistanceMatrix strSunday strAB LevenschteinCost = .ok (some M, none)) ∧
    (∃ M : matrix, EditDistanceMatrix strSunday strAB SmithWatermanCost = .ok (some M, none)) :=
  ⟨⟨by decide, by decide, by decide⟩,
    tableau_is_rectangular strSunday strAB (by decide) (by decide) (by decide)⟩

/-- C14: for distinct non-empty byte strings `s` and `t`, every interior cell
(`1 ≤ i ≤ |s|`, `1 ≤ j ≤ |t|`) of the returned tableau `M` satisfies the
selected recurrence over the final tableau, with `c = 0` if `s[i-1] = t[j-1]`
and `c = 1` otherwise: under `LevenschteinCost`,
`M[i][j] = min(M[i-1][j] + 1, M[i][j-1] + 1, M[i-1][j-1] + c)`; under
`SmithWatermanCost`,
`M[i][j] = min(0, M[i-1][j] + 1, M[i][j-1] + 1, M[i-1][j-1] + c)`. -/
theorem interior_cells_satisfy_recurrence (s t : List UInt8)
    (hst : s ≠ t) (hs : s ≠ []) (ht : t ≠ []) :
    (∃ M : matrix, EditDistanceMatrix s t LevenschteinCost = .ok (some M, none) ∧
      ∀ i j : Nat, 1 ≤ i → i ≤ s.length → 1 ≤ j → j ≤ t.length →
        ∃ (v up left diag : Int) (a b : UInt8),
          index2 M i j = .ok v ∧ index2 M ((i : Int) - 1) j = .ok up ∧
          index2 M i ((j : Int) - 1) = .ok left ∧
          index2 M ((i : Int) - 1) ((j : Int) - 1) = .ok diag ∧
          index s ((i : Int) - 1) = .ok a ∧ index t ((j : Int) - 1) = .ok b ∧
          v = min (up + 1) (min (left + 1) (diag + if a = b then 0 else 1))) ∧
    (∃ M : matrix, EditDistanceMatrix s t SmithWatermanCost = .ok (some M, none) ∧
      ∀ i j : Nat, 1 ≤ i → i ≤ s.length → 1 ≤ j → j ≤ t.length →
        ∃ (v up left diag : Int) (a b : UInt8),
          index2 M i j = .ok v ∧ index2 M ((i : Int) - 1) j = .ok up ∧
          index2 M i ((j : Int) - 1) = .ok left ∧
          index2 M ((i : Int) - 1) ((j : Int) - 1) = .ok diag ∧
          index s ((i : Int) - 1) = .ok a ∧ index t ((j : Int) - 1) = .ok b ∧
          v = min 0 (min (up + 1) (min (left + 1) (diag + if a = b then 0 else 1)))) := by
  have hnt : NonTrivial s t := ⟨hst, hs, ht⟩
  obtain ⟨Ml, hMl, _, hil⟩ := EditDistanceMatrix_lev_index s t hnt
  obtain ⟨Ms, hMs, _, his⟩ := EditDistanceMatrix_sw_index s t hnt
  refine ⟨⟨Ml, hMl, ?_⟩, ⟨Ms, hMs, ?_⟩⟩
  · intro i j hi1 hi hj1 hj
    obtain ⟨i, rfl⟩ : ∃ k, i = k + 1 := ⟨i - 1, by omega⟩
    obtain ⟨j, rfl⟩ : ∃ k, j = k + 1 := ⟨j - 1, by omega⟩
    refine ⟨levCell s t (i + 1) (j + 1), levCell s t i (j + 1), levCell s t (i + 1) j,
      levCell s t i j, s.getD i 0, t.getD j 0, hil (i + 1) (j + 1) hi hj, ?_, ?_, ?_, ?_, ?_, ?_⟩
    · rw [natCast_succ_sub_one]; exact hil i (j + 1) (by omega) hj
    · rw [natCast_succ_sub_one]; exact hil (i + 1) j hi (by omega)
    · rw [natCast_succ_sub_one, natCast_succ_sub_one]; exact hil i j (by omega) (by omega)
    · rw [natCast_succ_sub_one]; exact index_natCast s i 0 (by omega)
    · rw [natCast_succ_sub_one]; exact index_natCast t j 0 (by omega)
    · rw [levCell_succ s t i j (by omega) (by omega), substCost_succ]
  · intro i j hi1 hi hj1 hj
    obtain ⟨i, rfl⟩ : ∃ k, i = k + 1 := ⟨i - 1, by omega⟩
    obtain ⟨j, rfl⟩ : ∃ k, j = k + 1 := ⟨j - 1, by omega⟩
    refine ⟨swCell (i + 1) (j + 1), swCell i (j + 1), swCell (i + 1) j,
      swCell i j, s.getD i 0, t.getD j 0, his (i + 1) (j + 1) hi hj, ?_, ?_, ?_, ?_, ?_, ?_⟩
    · rw [natCast_succ_sub_one]; exact his i (j + 1) (by omega) hj
    · rw [natCast_succ_sub_one]; exact his (i + 1) j hi (by omega)
    · rw [natCast_succ_sub_one, natCast_succ_sub_one]; exact his i j (by omega) (by omega)
    · rw [natCast_succ_sub_one]; exact index_natCast s i 0 (by omega)
    · rw [natCast_succ_sub_one]; exact index_natCast t j 0 (by omega)
    · rw [swCell_succ_succ]
      have h1 := swCell_nonneg i (j + 1)
      have h2 := swCell_nonneg (i + 1) j
      have h3 := swCell_nonneg i j
      have h4 : (0 : Int) ≤ if s.getD i 0 = t.getD j 0 then 0 else 1 := by
        split <;> decide
      exact (min_eq_left (le_min (by omega) (le_min (by omega) (by omega)))).symm

theorem interior_cells_satisfy_recurrence_witness :
    (strAB ≠ strCA ∧ strAB ≠ [] ∧ strCA ≠ []) ∧
    (∃ M : matrix, EditDistanceMatrix strAB strCA LevenschteinCost = .ok (some M, none) ∧
      ∀ i j : Nat, 1 ≤ i → i ≤ strAB.length → 1 ≤ j → j ≤ strCA.length →
        ∃ (v up left diag : Int) (a b : UInt8),
          index2 M i j = .ok v ∧ index2 M ((i : Int) - 1) j = .ok up ∧
          index2 M i ((j : Int) - 1) = .ok left ∧
          index2 M ((i : Int) - 1) ((j : Int) - 1) = .ok diag ∧
          index strAB ((i : Int) - 1) = .ok a ∧ index strCA ((j : Int) - 1) = .ok b ∧
          v = min (up + 1) (min (left + 1) (diag + if a = b then 0 else 1))) ∧
    (∃ M : matrix, EditDistanceMatrix strAB strCA SmithWatermanCost = .ok (some M, none) ∧
      ∀ i j : Nat, 1 ≤ i → i ≤ strAB.length → 1 ≤ j → j ≤ strCA.length →
        ∃ (v up left diag : Int) (a b : UInt8),
          index2 M i j = .ok v ∧ index2 M ((i : Int) - 1) j = .ok up ∧
          index2 M i ((j : Int) - 1) = .ok left ∧
          index2 M ((i : Int) - 1) ((j : Int) - 1) = .ok diag ∧
          index strAB ((i : Int) - 1) = .ok a ∧ index strCA ((j : Int) - 1) = .ok b ∧
          v = min 0 (min (up + 1) (min (left + 1) (diag + if a = b then 0 else 1)))) :=
  ⟨⟨by decide, by decide, by decide⟩,
    interior_cells_satisfy_recurrence strAB strCA (by decide) (by decide) (by decide)⟩

/-- C15: the literal scenarios hold, each with a nil error:
`EditDistance2("kitten", "sitting") = 3`, `EditDistance2("saturday", "sunday") = 3`,
`EditDistanceMatrix("ab", "cd", LevenschteinCost)[2][2] = 2` and
`EditDistanceMatrix("ab", "cd", SmithWatermanCost)[2][2] = 0`. -/
theorem literal_scenarios :
    EditDistance2 strKitten strSitting = .ok (3, none) ∧
    EditDistance2 strSaturday strSunday = .ok (3, none) ∧
    (∃ M : matrix, EditDistanceMatrix strAB strCD LevenschteinCost = .ok (some M, none) ∧
      index2 M 2 2 = .ok 2) ∧
    (∃ M : matrix, EditDistanceMatrix strAB strCD SmithWatermanCost = .ok (some M, none) ∧
      index2 M 2 2 = .ok 0) :=
  ⟨by decide, by decide,
    ⟨[[0, 1, 2], [1, 1, 2], [2, 2, 2]], by decide, by decide⟩,
    ⟨[[0, 1, 2], [1, 0, 0], [2, 0, 0]], by decide, by decide⟩⟩

/-- C16, as stated, fails on the Smith–Waterman tableau of `"ab"` and `"ca"`,
which is `[[0,1,2],[1,0,0],[2,0,0]]`.  At cell `(1, 1)` (a mismatch) the three
candidates `M[0][1] + 1 = 2`, `M[1][0] + 1 = 2`, `M[0][0] + 1 = 1` are positive
although the neighbours `M[0][1]` and `M[1][0]` are `1`; at cell `(1, 2)` (a
match, both bytes are `a`) the three candidates `M[0][2] + 1 = 3`,
`M[1][1] + 1 = 1`, `M[0][1] + 0 = 1` are positive as well. -/
theorem smithWaterman_zero_candidate_fails :
    EditDistanceMatrix strAB strCA SmithWatermanCost =
      .ok (some [[0, 1, 2], [1, 0, 0], [2, 0, 0]], none) ∧
    (index strAB 0 = .ok 97 ∧ index strCA 0 = .ok 99 ∧
      index2 [[0, 1, 2], [1, 0, 0], [2, 0, 0]] 0 1 = .ok 1 ∧
      index2 [[0, 1, 2], [1, 0, 0], [2, 0, 0]] 1 0 = .ok 1 ∧
      index2 [[0, 1, 2], [1, 0, 0], [2, 0, 0]] 0 0 = .ok 0) ∧
    (index strAB 0 = .ok 97 ∧ index strCA 1 = .ok 97 ∧
      index2 [[0, 1, 2], [1, 0, 0], [2, 0, 0]] 0 2 = .ok 2 ∧
      index2 [[0, 1, 2], [1, 0, 0], [2, 0, 0]] 1 1 = .ok 0 ∧
      index2 [[0, 1, 2], [1, 0, 0], [2, 0, 0]] 0 1 = .ok 1) ∧
    ¬ ∃ M : matrix, EditDistanceMatrix strAB strCA SmithWatermanCost = .ok (some M, none) ∧
      ∀ i j : Nat, 1 ≤ i → i ≤ strAB.length → 1 ≤ j → j ≤ strCA.length →
        ∀ (up left diag : Int) (a b : UInt8),
          index2 M ((i : Int) - 1) j = .ok up → index2 M i ((j : Int) - 1) = .ok left →
          index2 M ((i : Int) - 1) ((j : Int) - 1) = .ok diag →
          index strAB ((i : Int) - 1) = .ok a → index strCA ((j : Int) - 1) = .ok b →
          (0 < up + 1 ∧ 0 < left + 1 ∧ 0 < diag + if a = b then 0 else 1) →
          a ≠ b ∧ up = 0 ∧ left = 0 ∧ diag = 0 := by
  have h : EditDistanceMatrix strAB strCA SmithWatermanCost =
      .ok (some [[0, 1, 2], [1, 0, 0], [2, 0, 0]], none) := by decide
  refine ⟨h, by decide, by decide, ?_⟩
  rintro ⟨M, hM, hall⟩
  rw [h] at hM
  have e : ([[0, 1, 2], [1, 0, 0], [2, 0, 0]] : matrix) = M := by
    injection hM with hM
    injection hM with hM _
    injection hM
  subst e
  have := hall 1 1 (by decide) (by decide) (by decide) (by decide) 1 1 0 97 99
    (by decide) (by decide) (by decide) (by decide) (by decide) (by decide)
  exact absurd this.2.1 (by decide)

/-- C16, amended: in the Smith–Waterman tableau
`M = EditDistanceMatrix s t SmithWatermanCost` of distinct non-empty `s` and
`t`, at an interior cell `(i, j)` the three neighbour-derived candidates
`M[i-1][j] + 1`, `M[i][j-1] + 1`, `M[i-1][j-1] + c` are all positive only when
the cell is a mismatch or its diagonal neighbour `M[i-1][j-1]` is positive;
and at every cell with `i ≥ 2` and `j ≥ 2` the three neighbours are zero and
the candidates are all positive only when the cell is a mismatch. -/
theorem smithWaterman_zero_candidate (s t : List UInt8)
    (hst : s ≠ t) (hs : s ≠ []) (ht : t ≠ []) :
    ∃ M : matrix, EditDistanceMatrix s t SmithWatermanCost = .ok (some M, none) ∧
      ∀ i j : Nat, 1 ≤ i → i ≤ s.length → 1 ≤ j → j ≤ t.length →
        ∃ (up left diag : Int) (a b : UInt8),
          index2 M ((i : Int) - 1) j = .ok up ∧ index2 M i ((j : Int) - 1) = .ok left ∧
          index2 M ((i : Int) - 1) ((j : Int) - 1) = .ok diag ∧
          index s ((i : Int) - 1) = .ok a ∧ index t ((j : Int) - 1) = .ok b ∧
          ((0 < up + 1 ∧ 0 < left + 1 ∧ 0 < diag + if a = b then 0 else 1) →
            (a ≠ b ∨ 0 < diag)) ∧
          (2 ≤ i → 2 ≤ j → up = 0 ∧ left = 0 ∧ diag = 0 ∧
            ((0 < up + 1 ∧ 0 < left + 1 ∧ 0 < diag + if a = b then 0 else 1) → a ≠ b)) := by
  have hnt : NonTrivial s t := ⟨hst, hs, ht⟩
  obtain ⟨M, hM, _, his⟩ := EditDistanceMatrix_sw_index s t hnt
  refine ⟨M, hM, ?_⟩
  intro i j hi1 hi hj1 hj
  obtain ⟨i, rfl⟩ : ∃ k, i = k + 1 := ⟨i - 1, by omega⟩
  obtain ⟨j, rfl⟩ : ∃ k, j = k + 1 := ⟨j - 1, by omega⟩
  refine ⟨swCell i (j + 1), swCell (i + 1) j, swCell i j, s.getD i 0, t.getD j 0,
    ?_, ?_, ?_, ?_, ?_, ?_, ?_⟩
  · rw [natCast_succ_sub_one]; exact his i (j + 1) (by omega) hj
  · rw [natCast_succ_sub_one]; exact his (i + 1) j hi (by omega)
  · rw [natCast_succ_sub_one, natCast_succ_sub_one]; exact his i j (by omega) (by omega)
  · rw [natCast_succ_sub_one]; exact index_natCast s i 0 (by omega)
  · rw [natCast_succ_sub_one]; exact index_natCast t j 0 (by omega)
  · rintro ⟨_, _, h3⟩
    by_cases hab : s.getD i 0 = t.getD j 0
    · right
      rw [if_pos hab] at h3
      omega
    · exact Or.inl hab
  · intro hi2 hj2
    obtain ⟨i, rfl⟩ : ∃ k, i = k + 1 := ⟨i - 1, by omega⟩
    obtain ⟨j, rfl⟩ : ∃ k, j = k + 1 := ⟨j - 1, by omega⟩
    refine ⟨swCell_succ_succ i (j + 1), swCell_succ_succ (i + 1) j, swCell_succ_succ i j, ?_⟩
    rintro ⟨_, _, h3⟩
    intro hab
    rw [if_pos hab, swCell_succ_succ] at h3
    exact absurd h3 (by decide)

theorem smithWaterman_zero_candidate_witness :
    (strABC ≠ strSunday ∧ strABC ≠ [] ∧ strSunday ≠ []) ∧
    ∃ M : matrix, EditDistanceMatrix strABC strSunday SmithWatermanCost =
        .ok (some M, none) ∧
      ∀ i j : Nat, 1 ≤ i → i ≤ strABC.length → 1 ≤ j → j ≤ strSunday.length →
        ∃ (up left diag : Int) (a b : UInt8),
          index2 M ((i : Int) - 1) j = .ok up ∧ index2 M i ((j : Int) - 1) = .ok left ∧
          index2 M ((i : Int) - 1) ((j : Int) - 1) = .ok diag ∧
          index strABC ((i : Int) - 1) = .ok a ∧ index strSunday ((j : Int) - 1) = .ok b ∧
          ((0 < up + 1 ∧ 0 < left + 1 ∧ 0 < diag + if a = b then 0 else 1) →
            (a ≠ b ∨ 0 < diag)) ∧
          (2 ≤ i → 2 ≤ j → up = 0 ∧ left = 0 ∧ diag = 0 ∧
            ((0 < up + 1 ∧ 0 < left + 1 ∧ 0 < diag + if a = b then 0 else 1) → a ≠ b)) :=
  ⟨⟨by decide, by decide, by decide⟩,
    smithWaterman_zero_candidate strABC strSunday (by decide) (by decide) (by decide)⟩

/-- C17: rolling-buffer loop invariant.  For distinct non-empty byte strings
`s` and `t`, with `M = EditDistanceMatrix s t LevenschteinCost`: before the
first outer iteration of `EditDistance2` the row `v0` equals row `0` of `M`,
that is `0, 1, …, |t|`; and for every `i < |s|`, after the outer iteration with
index `i` completes (the state reached by the first `i + 1` iterations, from
which the remaining iterations of the loop continue), both `v0` and `v1` equal
row `i + 1` of `M` on all `|t| + 1` entries. -/
theorem rolling_rows_are_tableau_rows (s t : List UInt8)
    (hst : s ≠ t) (hs : s ≠ []) (ht : t ≠ []) :
    ∃ M : matrix, EditDistanceMatrix s t LevenschteinCost = .ok (some M, none) ∧
      (∃ v0 v1 : List Int, rollInit t = .ok (v0, v1) ∧ index M 0 = .ok v0 ∧
        v0 = List.map (fun j : Nat => (j : Int)) (List.range (t.length + 1))) ∧
      ∀ i : Nat, i < s.length →
        ∃ row : List Int, index M ((i + 1 : Nat) : Int) = .ok row ∧
          row.length = t.length + 1 ∧
          (rollInit t >>= forRange (rollRow s t) 0 (i + 1)) = .ok (row, row) ∧
          ∀ v, forRange (rollRow s t) 0 s.length v =
            (forRange (rollRow s t) 0 (i + 1) v >>=
              forRange (rollRow s t) (i + 1) (s.length - (i + 1))) := by
  have hnt : NonTrivial s t := ⟨hst, hs, ht⟩
  obtain ⟨M, hM, hd, hc⟩ := EditDistanceMatrix_lev s t hnt
  refine ⟨M, hM, ?_, ?_⟩
  · obtain ⟨v0, hinit, hrow0⟩ := rollInit_spec s t
    refine ⟨v0, _, hinit, ?_, ?_⟩
    · have := rowIs_eq_row (levCell s t) _ _ 0 M v0 hd (Nat.succ_pos _)
        (fun l hl => hc 0 l (Nat.zero_le _) (by omega)) hrow0
      simpa using this
    · apply list_eq_of_getD
      · rw [hrow0.1]; simp
      · intro l hl
        rw [hrow0.1] at hl
        rw [hrow0.2 l hl, levCell_zero_left s t l (by omega)]
        simp [List.getD_eq_getElem?_getD, List.getElem?_range hl]
  · intro i hi
    obtain ⟨w, hw, hw0, _, hw1⟩ := rollLoop_spec s t (i + 1) (by omega)
    have hw1 := hw1 (Nat.succ_pos _)
    have hcell : ∀ l, l < t.length + 1 → cellAt M (i + 1) l = levCell s t (i + 1) l :=
      fun l hl => hc (i + 1) l (by omega) (by omega)
    have e0 := rowIs_eq_row (levCell s t) _ _ (i + 1) M w.1 hd (by omega) hcell hw0
    have e1 := rowIs_eq_row (levCell s t) _ _ (i + 1) M w.2 hd (by omega) hcell hw1
    have e : w.2 = w.1 := by
      rw [e0] at e1
      injection e1 with e1
      exact e1.symm
    refine ⟨w.1, e0, hw0.1, ?_, ?_⟩
    · rw [hw]
      congr 1
      exact Prod.ext rfl e
    · intro v
      have h := forRange_add (rollRow s t) (i + 1) (s.length - (i + 1)) 0 v
      have e2 : i + 1 + (s.length - (i + 1)) = s.length := by omega
      rw [e2, Nat.zero_add] at h
      exact h

theorem rolling_rows_are_tableau_rows_witness :
    (strCA ≠ strSaturday ∧ strCA ≠ [] ∧ strSaturday ≠ []) ∧
    ∃ M : matrix, EditDistanceMatrix strCA strSaturday LevenschteinCost = .ok (some M, none) ∧
      (∃ v0 v1 : List Int, rollInit strSaturday = .ok (v0, v1) ∧ index M 0 = .ok v0 ∧
        v0 = List.map (fun j : Nat => (j : Int)) (List.range (strSaturday.length + 1))) ∧
      ∀ i : Nat, i < strCA.length →
        ∃ row : List Int, index M ((i + 1 : Nat) : Int) = .ok row ∧
          row.length = strSaturday.length + 1 ∧
          (rollInit strSaturday >>= forRange (rollRow strCA strSaturday) 0 (i + 1)) =
            .ok (row, row) ∧
          ∀ v, forRange (rollRow strCA strSaturday) 0 strCA.length v =
            (forRange (rollRow strCA strSaturday) 0 (i + 1) v >>=
              forRange (rollRow strCA strSaturday) (i + 1) (strCA.length - (i + 1))) :=
  ⟨⟨by decide, by decide, by decide⟩,
    rolling_rows_are_tableau_rows strCA strSaturday (by decide) (by decide) (by decide)⟩

/-- C18: the Smith–Waterman tableau of this builder is degenerate.  For
distinct non-empty byte strings `s` and `t`, every interior cell
(`1 ≤ i ≤ |s|`, `1 ≤ j ≤ |t|`) of `EditDistanceMatrix s t SmithWatermanCost` is
exactly `0`, whatever the contents of `s` and `t`. -/
theorem smithWaterman_interior_is_zero (s t : List UInt8)
    (hst : s ≠ t) (hs : s ≠ []) (ht : t ≠ []) :
    ∃ M : matrix, EditDistanceMatrix s t SmithWatermanCost = .ok (some M, none) ∧
      ∀ i j : Nat, 1 ≤ i → i ≤ s.length → 1 ≤ j → j ≤ t.length →
        index2 M i j = .ok 0 := by
  have hnt : NonTrivial s t := ⟨hst, hs, ht⟩
  obtain ⟨M, hM, _, his⟩ := EditDistanceMatrix_sw_index s t hnt
  refine ⟨M, hM, fun i j hi1 hi hj1 hj => ?_⟩
  obtain ⟨i, rfl⟩ : ∃ k, i = k + 1 := ⟨i - 1, by omega⟩
  obtain ⟨j, rfl⟩ : ∃ k, j = k + 1 := ⟨j - 1, by omega⟩
  rw [his (i + 1) (j + 1) hi hj, swCell_succ_succ]

theorem smithWaterman_interior_is_zero_witness :
    (strSaturday ≠ strKitten ∧ strSaturday ≠ [] ∧ strKitten ≠ []) ∧
    ∃ M : matrix, EditDistanceMatrix strSaturday strKitten SmithWatermanCost =
        .ok (some M, none) ∧
      ∀ i j : Nat, 1 ≤ i → i ≤ strSaturday.length → 1 ≤ j → j ≤ strKitten.length →
        index2 M i j = .ok 0 :=
  ⟨⟨by decide, by decide, by decide⟩,
    smithWaterman_interior_is_zero strSaturday strKitten (by decide) (by decide) (by decide)⟩

/-- C19: a successful distance is never zero and never below the length gap.
For distinct non-empty byte strings `s` and `t`, the integer that
`EditDistance2 s t` returns is at least `max 1 | |s| - |t| |`. -/
theorem EditDistance2_ge_length_gap (s t : List UInt8)
    (hst : s ≠ t) (hs : s ≠ []) (ht : t ≠ []) :
    ∃ d : Int, EditDistance2 s t = .ok (d, none) ∧
      max 1 |(s.length : Int) - (t.length : Int)| ≤ d := by
  have hnt : NonTrivial s t := ⟨hst, hs, ht⟩
  obtain ⟨d, hd, hdist⟩ := isEditDistance_levCell s t s.length t.length
  rw [List.take_length, List.take_length] at hdist
  refine ⟨(d : Int), by rw [EditDistance2_spec s t hnt, hd], ?_⟩
  have hlen := editsIn_length hdist.1
  have hpos : d ≠ 0 := by
    intro h0
    rw [h0] at hdist
    exact hst (editsIn_zero hdist.1)
  exact max_le (by omega) (abs_le.2 ⟨by omega, by omega⟩)

theorem EditDistance2_ge_length_gap_witness :
    (strSunday ≠ strCA ∧ strSunday ≠ [] ∧ strCA ≠ []) ∧
    ∃ d : Int, EditDistance2 strSunday strCA = .ok (d, none) ∧
      max 1 |(strSunday.length : Int) - (strCA.length : Int)| ≤ d :=
  ⟨⟨by decide, by decide, by decide⟩,
    EditDistance2_ge_length_gap strSunday strCA (by decide) (by decide) (by decide)⟩

end Goutil
